import Mathlib

/-!
# Verification of the scale catalog synchronization engine

A shallow embedding, in Lean 4, of the core of `src/internal/cas.rs`:
the PLU allocator (`Scales::filtered_items`, `next_plu`, `wrong_range`),
the per-device protocol driver (`Scale`, `recvproc`, `stateproc`,
`ScaleAPI::push_plu`), the orchestrator poll loop (`Scales::send`), and
the fixed-buffer serialization (`jam`, `From<&ProductData> for
TD_ST_PLU_V06`).

Modelling conventions:
* Rust machine integers are embedded as `Nat`/`Int`; `u16`/`u32` parsing
  checks the numeric bound explicitly, as Rust's `str::parse` does.
  The `u16` probe counter of `next_plu` is embedded as `Nat`; the Rust
  counter could only leave the `u16` range after 65535 collisions, a
  regime none of the verified statements enters.
* Strings are Lean `String`s; Rust byte-level operations (`as_bytes`,
  `str::get` with byte ranges) act on an explicit UTF-8 encoding of the
  character list, mirroring Rust's char-boundary rules.
* Fallible/panicking paths (`unwrap`, `parse::<u16>().unwrap()`) are
  embedded with `Option`: `none` marks a panic of the original program.
* Rust's stable sorts (`itertools::sorted_by`/`sorted_by_key`, which
  collect and call the stable `slice::sort_by`) are embedded as
  `List.insertionSort`, which is stable for the same total preorder and
  therefore produces the same list.
* Floating-point fields (`normal_price`) take no part in any claim and
  are omitted from the embedding.
-/

/-! ## Rust string helpers -/

/-- Byte length of a character in UTF-8, as Rust and Lean both define it. -/
def utf8Len (c : Char) : ℕ :=
  if c.toNat < 0x80 then 1
  else if c.toNat < 0x800 then 2
  else if c.toNat < 0x10000 then 3
  else 4

/-- UTF-8 encoding of one character (Rust `str::as_bytes`, per char). -/
def utf8Bytes (c : Char) : List ℕ :=
  let n := c.toNat
  if n < 0x80 then [n]
  else if n < 0x800 then [0xC0 + n / 64, 0x80 + n % 64]
  else if n < 0x10000 then
    [0xE0 + n / 4096, 0x80 + n / 64 % 64, 0x80 + n % 64]
  else
    [0xF0 + n / 262144, 0x80 + n / 4096 % 64, 0x80 + n / 64 % 64, 0x80 + n % 64]

/-- The UTF-8 bytes of a string: Rust `str::as_bytes`. -/
def strBytes (s : String) : List ℕ :=
  s.data.flatMap utf8Bytes

/-- `pre.isPrefixOf` on character lists: Rust `str::starts_with`. -/
def strStartsWith (s pre : String) : Bool :=
  pre.data.isPrefixOf s.data

/-- Drop `n` UTF-8 bytes off a character list; `none` if `n` overruns the
list or falls inside a character (Rust char-boundary failure). -/
def dropBytes : List Char → ℕ → Option (List Char)
  | cs, 0 => some cs
  | [], _ + 1 => none
  | c :: cs, n + 1 => if utf8Len c ≤ n + 1 then dropBytes cs (n + 1 - utf8Len c) else none

/-- Take `n` UTF-8 bytes off a character list; `none` on overrun or a
char-boundary violation. -/
def takeBytes : List Char → ℕ → Option (List Char)
  | _, 0 => some []
  | [], _ + 1 => none
  | c :: cs, n + 1 =>
    if utf8Len c ≤ n + 1 then (takeBytes cs (n + 1 - utf8Len c)).map (c :: ·) else none

/-- Rust `str::get(a..b)`: the byte-indexed slice, `none` when the range
is inverted, overruns the string, or cuts a character. -/
def strGet (s : String) (a b : ℕ) : Option String :=
  if a ≤ b then
    (dropBytes s.data a).bind fun rest => (takeBytes rest (b - a)).map fun cs => ⟨cs⟩
  else none

/-- Is `c` an ASCII digit? -/
def isDigitChar (c : Char) : Bool :=
  48 ≤ c.toNat && c.toNat ≤ 57

/-- Accumulating decimal evaluation of a digit list; `none` at the first
non-digit character. -/
def digitsToNat (acc : ℕ) : List Char → Option ℕ
  | [] => some acc
  | c :: cs => if isDigitChar c then digitsToNat (acc * 10 + (c.toNat - 48)) cs else none

/-- Value of a non-empty all-digit character list, else `none`. -/
def parseNatDigits : List Char → Option ℕ
  | [] => none
  | c :: cs => digitsToNat 0 (c :: cs)

/-- Strip one leading `'+'`, as Rust integer parsing does. -/
def stripPlusSign : List Char → List Char
  | [] => []
  | c :: cs => if c = '+' then cs else c :: cs

/-- Rust `str::parse::<u16>()`: optional `'+'`, then one or more ASCII
digits, value at most `65535`. -/
def rustParseU16 (s : String) : Option ℕ :=
  (parseNatDigits (stripPlusSign s.data)).bind fun n =>
    if n ≤ 65535 then some n else none

/-- Rust `str::parse::<u32>()`. -/
def rustParseU32 (s : String) : Option ℕ :=
  (parseNatDigits (stripPlusSign s.data)).bind fun n =>
    if n ≤ 4294967295 then some n else none

/-- The ASCII digit character for `d < 10`. -/
def digitChar (d : ℕ) : Char :=
  Char.ofNat (48 + d)

/-- Decimal digits of `n`, least significant first; `fuel`-bounded
structural recursion (any `fuel ≥ n` is exact). -/
def digitsAux : ℕ → ℕ → List Char
  | 0, _ => []
  | fuel + 1, n =>
    if n < 10 then [digitChar n] else digitChar (n % 10) :: digitsAux fuel (n / 10)

/-- Decimal rendering of a natural number (Rust `u16::to_string`). -/
def natToString (n : ℕ) : String :=
  ⟨(digitsAux (n + 1) n).reverse⟩

/-! ## Data model (`super::api`) -/

/-- `ProductData` (`src/internal/api.rs`), restricted to the fields the
scale engine reads.  `normal_price: f64` is omitted (floating point, not
used by any claim). -/
structure ProductData where
  upc : String
  description : String
  secondDescription : Option String
  deleted : Bool
  plu : Option String
  departmentId : Int
  sectionId : Option Int
  deriving DecidableEq, Repr

/-- `PLUAssignment` (`src/internal/api.rs`): a `(UPC, new PLU)` correction. -/
structure PLUAssignment where
  upc : String
  plu : ℕ
  deriving DecidableEq, Repr

/-! ## PLU allocator (`wrong_range`, `next_plu`, `Scales::filtered_items`) -/

/-- `wrong_range` (cas.rs:632): a PLU is out of range when an internal
item (description prefixed `"(I)"`) has `plu ≥ 1000`, or a standard item
has `plu < 1000`. -/
def wrongRange (item : ProductData) (plu : ℕ) : Bool :=
  (strStartsWith item.description "(I)" && decide (1000 ≤ plu)) ||
  (!strStartsWith item.description "(I)" && decide (plu < 1000))

/-- The probe floor of `next_plu` (cas.rs:637): 1 for internal items,
1001 for standard ones. -/
def pluFloor (item : ProductData) : ℕ :=
  if strStartsWith item.description "(I)" then 1 else 1001

/-- The probe loop of `next_plu` (cas.rs:642): scan upward from `p`
while the value is claimed.  The Rust loop has no fuel; `hs.card + 1`
probes provably suffice to leave the finite claimed set. -/
def probeFrom (hs : Finset ℕ) : ℕ → ℕ → ℕ
  | p, 0 => p
  | p, fuel + 1 => if p ∈ hs then probeFrom hs (p + 1) fuel else p

/-- `next_plu` (cas.rs:636): the first unclaimed value at or above the
category floor, immediately inserted into the claimed set. -/
def next_plu (hs : Finset ℕ) (item : ProductData) : ℕ × Finset ℕ :=
  let probe := probeFrom hs (pluFloor item) (hs.card + 1)
  (probe, insert probe hs)

/-- State threaded through one allocation pass of
`Scales::filtered_items` (cas.rs:973-1008): `existing` is the claimed
set fed to `next_plu`, `seen` the per-pass claim set, `asg` the
accumulated corrections.  `out` additionally records, in processing
order, the final PLU of every processed item (the kept or newly
assigned value) — an observer used to state uniqueness. -/
structure AllocSt where
  existing : Finset ℕ
  seen : Finset ℕ
  asg : List PLUAssignment
  out : List ℕ

/-- One iteration of the allocation walk (cas.rs:982-1008); `none` is
the `parse::<u16>().unwrap()` panic. -/
def allocStep (st : AllocSt) (item : ProductData) : Option AllocSt :=
  match item.plu with
  | some s =>
    match rustParseU16 s with
    | none => none
    | some plu =>
      if plu ∈ st.seen ∨ wrongRange item plu = true then
        let v := (next_plu st.existing item).1
        some ⟨(next_plu st.existing item).2, insert v st.seen,
              st.asg ++ [⟨item.upc, v⟩], st.out ++ [v]⟩
      else
        some ⟨st.existing, insert plu st.seen, st.asg, st.out ++ [plu]⟩
  | none =>
    let v := (next_plu st.existing item).1
    some ⟨(next_plu st.existing item).2, insert v st.seen,
          st.asg ++ [⟨item.upc, v⟩], st.out ++ [v]⟩

/-- The allocation walk over the sorted item list. -/
def allocFold : AllocSt → List ProductData → Option AllocSt
  | st, [] => some st
  | st, item :: rest =>
    match allocStep st item with
    | none => none
    | some st' => allocFold st' rest

/-- Seeding of the `existing_plu` set (cas.rs:976-981): every parseable
carried PLU; `none` is the seeding `unwrap` panic. -/
def seedPlus : Finset ℕ → List ProductData → Option (Finset ℕ)
  | ex, [] => some ex
  | ex, item :: rest =>
    match item.plu with
    | none => seedPlus ex rest
    | some s =>
      match rustParseU16 s with
      | none => none
      | some p => seedPlus (insert p ex) rest

/-- The catalog filter of `filtered_items` (cas.rs:959): not deleted and
UPC matching the caller's pattern (the regex is abstracted to a
predicate on the UPC). -/
def keepItem (keep : String → Bool) (item : ProductData) : Bool :=
  !item.deleted && keep item.upc

/-- Lexicographic `≤` on byte lists: Rust `String::cmp` compares the
UTF-8 bytes lexicographically. -/
def bytesLE : List ℕ → List ℕ → Bool
  | [], _ => true
  | _ :: _, [] => false
  | x :: xs, y :: ys => if x < y then true else if y < x then false else bytesLE xs ys

/-- Sort key relation: description order (`sorted_by` on `description`,
cas.rs:969), i.e. Rust's byte-lexicographic string order. -/
def descLE (x y : ProductData) : Prop :=
  bytesLE (strBytes x.description) (strBytes y.description) = true

instance : DecidableRel descLE := fun x y =>
  inferInstanceAs (Decidable (bytesLE (strBytes x.description) (strBytes y.description) = true))

/-- Section key (`sorted_by_key`, cas.rs:970): `section_id.unwrap_or(0)`. -/
def secKey (x : ProductData) : Int :=
  x.sectionId.getD 0

/-- Sort key relation: section id order. -/
def secLE (x y : ProductData) : Prop :=
  secKey x ≤ secKey y

instance : DecidableRel secLE := fun x y =>
  inferInstanceAs (Decidable (secKey x ≤ secKey y))

theorem bytesLE_total : ∀ a b : List ℕ, bytesLE a b = true ∨ bytesLE b a = true
  | [], _ => Or.inl rfl
  | _ :: _, [] => Or.inr rfl
  | x :: xs, y :: ys => by
    rcases Nat.lt_trichotomy x y with h | h | h
    · exact Or.inl (by simp [bytesLE, h])
    · subst h
      rcases bytesLE_total xs ys with h' | h'
      · exact Or.inl (by simp [bytesLE, h'])
      · exact Or.inr (by simp [bytesLE, h'])
    · exact Or.inr (by simp [bytesLE, h])

theorem bytesLE_trans :
    ∀ a b c : List ℕ, bytesLE a b = true → bytesLE b c = true → bytesLE a c = true
  | [], _, _, _, _ => rfl
  | _ :: _, [], _, hab, _ => by simp [bytesLE] at hab
  | _ :: _, _ :: _, [], _, hbc => by simp [bytesLE] at hbc
  | x :: xs, y :: ys, z :: zs, hab, hbc => by
    simp only [bytesLE] at hab hbc ⊢
    rcases Nat.lt_trichotomy x y with hxy | hxy | hxy
    · rcases Nat.lt_trichotomy y z with hyz | hyz | hyz
      · rw [if_pos (by omega)]
      · subst hyz; rw [if_pos hxy]
      · rw [if_neg (by omega), if_pos hyz] at hbc; simp at hbc
    · subst hxy
      rw [if_neg (lt_irrefl x), if_neg (lt_irrefl x)] at hab
      rcases Nat.lt_trichotomy x z with hxz | hxz | hxz
      · rw [if_pos hxz]
      · subst hxz
        rw [if_neg (lt_irrefl x), if_neg (lt_irrefl x)] at hbc ⊢
        exact bytesLE_trans xs ys zs hab hbc
      · rw [if_neg (by omega), if_pos hxz] at hbc; simp at hbc
    · rw [if_neg (by omega), if_pos hxy] at hab; simp at hab

instance : IsTotal ProductData descLE :=
  ⟨fun a b => bytesLE_total (strBytes a.description) (strBytes b.description)⟩

instance : IsTrans ProductData descLE :=
  ⟨fun _ _ _ h h' => bytesLE_trans _ _ _ h h'⟩

instance : IsTotal ProductData secLE :=
  ⟨fun a b => le_total (secKey a) (secKey b)⟩

instance : IsTrans ProductData secLE :=
  ⟨fun _ _ _ h h' => le_trans h h'⟩

/-- Filter and double stable sort of `filtered_items` (cas.rs:966-971):
filter, stable-sort by description, then stable-sort by section key. -/
def sortItems (keep : String → Bool) (items : List ProductData) : List ProductData :=
  ((items.filter (keepItem keep)).insertionSort descLE).insertionSort secLE

/-- One full allocation pass of `Scales::filtered_items`
(cas.rs:959-1008): filter, sort, seed, walk.  `none` is a parse panic. -/
def allocate (keep : String → Bool) (items : List ProductData) : Option AllocSt :=
  let sorted := sortItems keep items
  match seedPlus ∅ sorted with
  | none => none
  | some ex => allocFold ⟨ex, ∅, [], []⟩ sorted

/-- The corrections produced by one allocation pass. -/
def allocAssignments (keep : String → Bool) (items : List ProductData) : List PLUAssignment :=
  ((allocate keep items).map AllocSt.asg).getD []

/-- The per-item output PLUs of one allocation pass (kept values plus
newly assigned values, in processing order). -/
def allocOut (keep : String → Bool) (items : List ProductData) : List ℕ :=
  ((allocate keep items).map AllocSt.out).getD []

/-- Modelled from the spec: "the catalog with the first pass's
corrections applied" — each item whose UPC carries a correction gets the
corrected PLU (rendered back to its string field), every other item is
unchanged.  (The program itself re-fetches the post-push catalog from
the POS system, which is outside the repository.) -/
def applyOne (cs : List PLUAssignment) (item : ProductData) : ProductData :=
  match cs.find? (fun c => c.upc == item.upc) with
  | some c => { item with plu := some (natToString c.plu) }
  | none => item

/-- Modelled from the spec: corrections applied across the catalog. -/
def applyCorrections (items : List ProductData) (cs : List PLUAssignment) : List ProductData :=
  items.map (applyOne cs)

/-! ## Fixed-buffer serialization (`jam`, `From<&ProductData> for TD_ST_PLU_V06`) -/

/-- `jam` (cas.rs:436): copy the string's bytes into the fixed buffer
`out`; when the string does not fit, copy only `out.len() - 1` bytes.
Bytes past the copied prefix keep their previous value (the buffers are
zero-initialised by `Default`). -/
def jam (bs : List ℕ) (out : List ℕ) : List ℕ :=
  let copylen := if bs.length < out.length then bs.length else out.length - 1
  bs.take copylen ++ out.drop copylen

/-- Does the item carry a non-empty ingredient text (cas.rs:462-468)? -/
def hasIngredient (p : ProductData) : Bool :=
  match p.secondDescription with
  | some ing => !(strBytes ing).isEmpty
  | none => false

/-- The item-code computation (cas.rs:452-457): strip leading zeros off
the 5-byte UPC slice, parse as `u32`, fall back to 0. -/
def itemCodeOf (code : String) : ℕ :=
  (rustParseU32 ⟨code.data.dropWhile (· = '0')⟩).getD 0

/-- The fields of `TD_ST_PLU_V06` that `From<&ProductData>` fills
(cas.rs:446-472).  The two text buffers are byte lists of fixed length
101 and 4097.  `dwUnitPrice` (floating-point arithmetic) is omitted. -/
structure TDPLURecord where
  wdDepart : ℕ
  dwPLU : ℕ
  chName1 : List ℕ
  wdLabel1 : ℕ
  dwItemCode : ℕ
  chDirectIngredient : List ℕ
  btPLUType : ℕ
  btWeightUnit : ℕ
  deriving DecidableEq, Repr

/-- `From<&ProductData> for TD_ST_PLU_V06` (cas.rs:446): `none` is a
panic of one of the three `unwrap`s (missing PLU, unparseable PLU,
out-of-bounds UPC slice). -/
def toTD (p : ProductData) : Option TDPLURecord :=
  match p.plu with
  | none => none
  | some s =>
    match rustParseU32 s with
    | none => none
    | some plu =>
      match strGet p.upc 3 8 with
      | none => none
      | some code =>
        some { wdDepart := (p.departmentId % 65536).toNat,
               dwPLU := plu,
               chName1 := jam (strBytes p.description) (List.replicate 101 0),
               wdLabel1 := if hasIngredient p then 62 else 0,
               dwItemCode := itemCodeOf code,
               chDirectIngredient :=
                 if hasIngredient p then
                   jam (strBytes (p.secondDescription.getD "")) (List.replicate 4097 0)
                 else List.replicate 4097 0,
               btPLUType := 1,
               btWeightUnit := 1 }

/-- The final catalog restriction of `filtered_items` (cas.rs:1026-1044):
drop items with a missing or unparseable PLU, internal PLUs when only
external items were requested, and items whose UPC has no well-formed
byte slice `3..8`. -/
def finalKeep (dumpInternal : Bool) (item : ProductData) : Bool :=
  match item.plu with
  | none => false
  | some s =>
    match rustParseU16 s with
    | none => false
    | some plu =>
      if !dumpInternal && plu < 1000 then false
      else (strGet item.upc 3 8).isSome

/-! ## Protocol driver (`Scale`, `recvproc`, `stateproc`, `ScaleAPI`) -/

/-- `DfAction` (cas.rs:41). -/
inductive DfAction
  | NOTHING | GETINFO | DOWNLOAD | DELETE | DELETEALL | PING | COMPLETE | NOTIFY
  deriving DecidableEq, Repr

/-- `DfState` (cas.rs:132). -/
inductive DfState
  | CONNECT | DISCONNECT | CLOSE | RECV | SEND | OUTOFBAND | RETRY | RETRYOVER
  | COMPLETE | SUCCESS | LISTEN | ACCEPT | INVALIDSOCKET | SOCKETERROR
  | HOSTNOTFIND | TIMEOUT | WSAERROR | COMMERROR | ADDCONNERROR | CONNERROR
  | SENDFAIL | RECEIVETIMEOVER | ALREADYCONNECTED | CONNECT_FTP | DISCONNECT_FTP
  | RETRYOVER_FTP | CONNERROR_FTP | SENDFAIL_FTP | RECEIVETIMEOVER_FTP
  | ALREADYCONNECTED_FTP
  deriving DecidableEq, Repr

/-- The per-device record `Scale` (cas.rs:482). -/
structure Scale where
  ip : String
  idx : Int
  state : DfState
  last_send_action : DfAction
  last_recv_action : DfAction
  should_delete : Bool
  delete_completed : Bool
  plus_downloaded : ℕ
  product_idx : ℕ
  products : List ProductData
  notified : Bool
  deriving DecidableEq, Repr

/-- `Scale::new` (cas.rs:497). -/
def Scale.new (ip : String) : Scale :=
  ⟨ip, -1, .DISCONNECT, .NOTHING, .NOTHING, true, false, 0, 0, [], false⟩

/-- `Scale::complete` (cas.rs:512): all items acknowledged and the
delete flag mirrored by its completion flag. -/
def Scale.complete (s : Scale) : Bool :=
  (s.plus_downloaded == s.products.length) && (s.should_delete == s.delete_completed)

/-- Vendor-visible effects of a driver transition.  The payload of a
PLU send (built by `toTD`) is abstracted to the item index. -/
inductive Effect
  | sendPLU (ip : String) (idx : ℕ)
  | sendDeleteAll (ip : String)
  | disconnect (ip : String)
  deriving DecidableEq, Repr

/-- `ScaleAPI::push_plu` (cas.rs:809): no-op `Ok(false)` when the cursor
is past the end; an error when the device is not in `CONNECT`; otherwise
a vendor send of the item at `product_idx`, whose failure (`ret == 0`,
modelled by `sendOk = false`) yields the error branch.  `Ok(r)` reports
whether further items remain after this one. -/
def push_plu (sendOk : Bool) (s : Scale) : Scale × List Effect × Except Unit Bool :=
  if s.products.length ≤ s.product_idx then (s, [], .ok false)
  else if s.state ≠ DfState.CONNECT then (s, [], .error ())
  else
    let s' := { s with last_send_action := DfAction.DOWNLOAD }
    if sendOk then
      (s', [.sendPLU s.ip s.product_idx], .ok (decide (s.product_idx + 1 < s.products.length)))
    else
      (s', [.sendPLU s.ip s.product_idx], .error ())

/-- `ScaleAPI::delete_plus` (cas.rs:781): refuse outside `CONNECT`,
otherwise issue the delete-all send (its return code is ignored). -/
def delete_plus (s : Scale) : Scale × List Effect × Bool :=
  if s.state ≠ DfState.CONNECT then (s, [], false)
  else ({ s with last_send_action := DfAction.DELETEALL }, [.sendDeleteAll s.ip], true)

/-- The `match rc` block both receive arms share (cas.rs:661-670 and
677-686): on `Ok` advance the cursor, on `Err` log and disconnect. -/
def pushAdvance (sendOk : Bool) (s : Scale) : Scale × List Effect :=
  match push_plu sendOk s with
  | (s', effs, .ok _) => ({ s' with product_idx := s'.product_idx + 1 }, effs)
  | (s', effs, .error _) => (s', effs ++ [.disconnect s'.ip])

/-- `recvproc`, `DfAction::DOWNLOAD` arm (cas.rs:674-687): count the
acknowledgment, push the next item; on a send error, disconnect the
device. -/
def recvDownloadStep (sendOk : Bool) (s : Scale) : Scale × List Effect :=
  pushAdvance sendOk
    { s with last_recv_action := DfAction.DOWNLOAD,
             plus_downloaded := s.plus_downloaded + 1 }

/-- `recvproc`, `DfAction::DELETEALL` arm (cas.rs:654-673): when the
echoed record's name carries the `"W"` sentinel, mark the delete
completed and start the download. -/
def recvDeleteAllStep (name : String) (sendOk : Bool) (s : Scale) : Scale × List Effect :=
  if strStartsWith name "W" then
    pushAdvance sendOk
      { s with last_recv_action := DfAction.DELETEALL, delete_completed := true }
  else ({ s with last_recv_action := DfAction.DELETEALL }, [])

/-- `recvproc`, catch-all arm (cas.rs:688-690): only the last received
action is recorded. -/
def recvOtherStep (a : DfAction) (s : Scale) : Scale × List Effect :=
  ({ s with last_recv_action := a }, [])

/-- `stateproc` (cas.rs:701): store the reported state; on `CONNECT`,
either start the delete or push the first item (advancing the cursor
only when more items remain, cas.rs:729-732); every other state is
logged and ignored. -/
def stateStep (st : DfState) (sendOk : Bool) (s : Scale) : Scale × List Effect :=
  let s := { s with state := st }
  match st with
  | DfState.CONNECT =>
    if s.should_delete then
      let r := delete_plus s
      (r.1, r.2.1)
    else
      match push_plu sendOk s with
      | (s', effs, .ok true) => ({ s' with product_idx := s'.product_idx + 1 }, effs)
      | (s', effs, .ok false) => (s', effs)
      | (s', effs, .error _) => (s', effs ++ [.disconnect s'.ip])
  | _ => (s, [])

/-- The poll-loop body's per-device observation (cas.rs:1116-1123):
first completion observation sets the `notified` flag. -/
def pollStep (s : Scale) : Scale :=
  if s.complete && !s.notified then { s with notified := true } else s

/-- One session operation on a device record: a receive callback, a
state callback, or a poll observation. -/
inductive ScaleOp
  | recvDownload (sendOk : Bool)
  | recvDeleteAll (name : String) (sendOk : Bool)
  | recvOther (a : DfAction)
  | stateCb (st : DfState) (sendOk : Bool)
  | pollObserve
  deriving DecidableEq, Repr

/-- Apply one operation, returning the new record and the vendor calls
it issued. -/
def applyOp (op : ScaleOp) (s : Scale) : Scale × List Effect :=
  match op with
  | .recvDownload sendOk => recvDownloadStep sendOk s
  | .recvDeleteAll name sendOk => recvDeleteAllStep name sendOk s
  | .recvOther a => recvOtherStep a s
  | .stateCb st sendOk => stateStep st sendOk s
  | .pollObserve => (pollStep s, [])

/-- Apply one operation, keeping only the record. -/
def stepOp (op : ScaleOp) (s : Scale) : Scale :=
  (applyOp op s).1

/-- Run a session fragment: a sequence of callback / poll operations. -/
def runOps (s : Scale) (ops : List ScaleOp) : Scale :=
  ops.foldl (fun s op => stepOp op s) s

/-! ## Device registry and orchestrator (`Scales::send`) -/

/-- The process-wide registry: address → device record (the `scales`
map of `ScaleAPI`; keys are unique addresses). -/
abbrev Registry := List (String × Scale)

/-- Mutate the record of one address (a callback's
`cas.scales.get(&ip).unwrap()` followed by the mutation); `none` is the
panic on an unknown address. -/
def updateScale (ip : String) (f : Scale → Scale × List Effect) :
    Registry → Option (Registry × List Effect)
  | [] => none
  | (k, s) :: rest =>
    if k = ip then
      let r := f s
      some ((k, r.1) :: rest, r.2)
    else
      (updateScale ip f rest).map fun r => ((k, s) :: r.1, r.2)

/-- `recvproc` dispatched through the registry for a `DOWNLOAD`
acknowledgment arriving from device `ip`. -/
def registryRecvDownload (ip : String) (sendOk : Bool) (reg : Registry) :
    Option (Registry × List Effect) :=
  updateScale ip (fun s => recvDownloadStep sendOk s) reg

/-- The addresses the poll loop iterates over (cas.rs:1113): every
registered device, with no removal ever. -/
def pollList (reg : Registry) : List String :=
  reg.map Prod.fst

/-- The poll loop's completion test (cas.rs:1111-1131): every
registered device must be complete. -/
def allComplete (reg : Registry) : Bool :=
  reg.all fun e => e.2.complete

/-- The ip an effect is addressed to. -/
def Effect.ipOf : Effect → String
  | .sendPLU ip _ => ip
  | .sendDeleteAll ip => ip
  | .disconnect ip => ip

/-- The poll loop of `Scales::send` (cas.rs:1109-1141), discretised to
whole seconds: iteration `k` runs after `k` one-second sleeps, so
`start.elapsed().as_secs()` reads `k`.  The loop first tests completion
(`doneAt k`), then the timeout guard `timeout != 0 && elapsed > timeout`,
then sleeps.  `fuel` bounds the unrolling (the Rust loop is unbounded);
`some (.ok k)` / `some (.error k)` report the exit kind and the elapsed
seconds at exit. -/
def pollLoop (timeout : ℕ) (doneAt : ℕ → Bool) : ℕ → ℕ → Option (Except ℕ ℕ)
  | _, 0 => none
  | k, fuel + 1 =>
    if doneAt k then some (.ok k)
    else if timeout ≠ 0 ∧ timeout < k then some (.error k)
    else pollLoop timeout doneAt (k + 1) fuel

/-! ## The probe loop finds the smallest unclaimed value -/

theorem probeFrom_spec :
    ∀ (fuel : ℕ) (p : ℕ) (hs : Finset ℕ), (hs.filter (fun x => p ≤ x)).card < fuel →
      p ≤ probeFrom hs p fuel ∧ probeFrom hs p fuel ∉ hs ∧
        ∀ m, p ≤ m → m ∉ hs → probeFrom hs p fuel ≤ m := by
  intro fuel
  induction fuel with
  | zero => intro p hs h; omega
  | succ fuel ih =>
    intro p hs h
    by_cases hp : p ∈ hs
    · have hmem : p ∈ hs.filter (fun x => p ≤ x) := by
        simp [Finset.mem_filter, hp]
      have herase : hs.filter (fun x => p + 1 ≤ x) = (hs.filter (fun x => p ≤ x)).erase p := by
        ext x
        simp only [Finset.mem_filter, Finset.mem_erase]
        constructor
        · intro ⟨hx, hle⟩; exact ⟨by omega, hx, by omega⟩
        · intro ⟨hne, hx, hle⟩
          refine ⟨hx, ?_⟩
          rcases Nat.lt_or_ge p x with h' | h'
          · omega
          · exact absurd (le_antisymm h' hle) (by omega)
      have hcard : (hs.filter (fun x => p + 1 ≤ x)).card < fuel := by
        rw [herase, Finset.card_erase_of_mem hmem]
        have := Finset.card_pos.mpr ⟨p, hmem⟩
        omega
      obtain ⟨h1, h2, h3⟩ := ih (p + 1) hs hcard
      refine ⟨?_, ?_, ?_⟩
      · simp only [probeFrom, if_pos hp]; omega
      · simp only [probeFrom, if_pos hp]; exact h2
      · intro m hm hmn
        simp only [probeFrom, if_pos hp]
        have : p ≠ m := fun he => hmn (he ▸ hp)
        exact h3 m (by omega) hmn
    · refine ⟨?_, ?_, ?_⟩ <;> simp only [probeFrom, if_neg hp]
      · exact le_refl p
      · exact hp
      · intro m hm _; exact hm

theorem next_plu_spec (hs : Finset ℕ) (item : ProductData) :
    pluFloor item ≤ (next_plu hs item).1 ∧ (next_plu hs item).1 ∉ hs ∧
      (∀ m, pluFloor item ≤ m → m ∉ hs → (next_plu hs item).1 ≤ m) ∧
      (next_plu hs item).2 = insert (next_plu hs item).1 hs := by
  have hcard : (hs.filter (fun x => pluFloor item ≤ x)).card < hs.card + 1 :=
    Nat.lt_succ_of_le (Finset.card_filter_le hs _)
  obtain ⟨h1, h2, h3⟩ := probeFrom_spec (hs.card + 1) (pluFloor item) hs hcard
  exact ⟨h1, h2, h3, rfl⟩

/-- An item requires a correction when its PLU is missing, already
claimed this pass, or out of its category's range (cas.rs:982-1007). -/
def needsCorrection (st : AllocSt) (item : ProductData) : Prop :=
  item.plu = none ∨
    ∃ s p, item.plu = some s ∧ rustParseU16 s = some p ∧
      (p ∈ st.seen ∨ wrongRange item p = true)

/-- Example 1's first item: `{name:"(I) Salami", plu:None}`. -/
def salamiItem : ProductData :=
  ⟨"Salami UPC", "(I) Salami", none, false, none, 1, none⟩

/-- Example 1's second item: `{name:"Turkey", plu:"950"}`. -/
def turkeyItem : ProductData :=
  ⟨"Turkey UPC", "Turkey", none, false, some "950", 1, none⟩

/-- Example 1's input catalog. -/
def example1Items : List ProductData :=
  [salamiItem, turkeyItem]

/-- C1: every item requiring a correction is assigned the smallest
value not in the used set at or above its category floor (1 internal,
1001 standard), and that value is inserted into the used set before the
next item is processed; on the Example 1 input the pass produces
corrections `[("Salami UPC", 1), ("Turkey UPC", 1001)]`. -/
theorem c1_smallest_unclaimed :
    (∀ (st : AllocSt) (item : ProductData), needsCorrection st item →
      ∃ v, allocStep st item =
          some ⟨insert v st.existing, insert v st.seen,
                st.asg ++ [⟨item.upc, v⟩], st.out ++ [v]⟩ ∧
        pluFloor item ≤ v ∧ v ∉ st.existing ∧
        ∀ m, pluFloor item ≤ m → m ∉ st.existing → v ≤ m) ∧
    allocAssignments (fun _ => true) example1Items =
      [⟨"Salami UPC", 1⟩, ⟨"Turkey UPC", 1001⟩] := by
  constructor
  · intro st item hneed
    obtain ⟨h1, h2, h3, h4⟩ := next_plu_spec st.existing item
    refine ⟨(next_plu st.existing item).1, ?_, h1, h2, h3⟩
    rcases hneed with hnone | ⟨s, p, hsome, hparse, hcond⟩
    · simp only [allocStep, hnone]
      rw [h4]
    · simp only [allocStep, hsome, hparse]
      rw [if_pos hcond, h4]
  · decide

/-- C1 witness: the Salami item of Example 1 against used set `{950}`
receives the smallest free internal value. -/
theorem c1_witness :
    ∃ v, allocStep ⟨{950}, ∅, [], []⟩ salamiItem =
        some ⟨insert v ({950} : Finset ℕ), insert v (∅ : Finset ℕ),
              [] ++ [⟨salamiItem.upc, v⟩], [] ++ [v]⟩ ∧
      pluFloor salamiItem ≤ v ∧ v ∉ ({950} : Finset ℕ) ∧
      ∀ m, pluFloor salamiItem ≤ m → m ∉ ({950} : Finset ℕ) → v ≤ m :=
  c1_smallest_unclaimed.1 ⟨{950}, ∅, [], []⟩ salamiItem (Or.inl rfl)

/-! ## C8: fixed-buffer serialization is bounded and truncating -/

theorem takeWhile_append_zero :
    ∀ (bs t : List ℕ), (0 : ℕ) ∉ bs →
      (bs ++ 0 :: t).takeWhile (fun x => decide (x ≠ 0)) = bs := by
  intro bs
  induction bs with
  | nil => intro t _; simp [List.takeWhile]
  | cons b bs ih =>
    intro t hmem
    have hb : b ≠ 0 := fun h => hmem (h ▸ List.mem_cons_self b bs)
    have : (0 : ℕ) ∉ bs := fun h => hmem (List.mem_cons_of_mem b h)
    simp only [List.cons_append, List.takeWhile, decide_eq_true hb]
    rw [show bs.append (0 :: t) = bs ++ 0 :: t from rfl, ih t this]

/-- C8: `jam` never writes past the buffer (the result has the buffer's
length); a string shorter than the buffer is copied byte-for-byte and,
into a zeroed buffer, round-trips unchanged with null padding; a string
not shorter than the buffer is truncated to capacity minus one byte,
leaving a trailing null. -/
theorem c8_jam_buffer_safe :
    ∀ (bs out : List ℕ) (n : ℕ),
      ((jam bs out).length = out.length) ∧
      (bs.length < out.length → jam bs out = bs ++ out.drop bs.length) ∧
      (bs.length < n → (0 : ℕ) ∉ bs →
        (jam bs (List.replicate n 0)).takeWhile (fun x => decide (x ≠ 0)) = bs) ∧
      (n ≤ bs.length → 0 < n →
        jam bs (List.replicate n 0) = bs.take (n - 1) ++ [0]) := by
  intro bs out n
  refine ⟨?_, ?_, ?_, ?_⟩
  · simp only [jam, List.length_append, List.length_take, List.length_drop]
    split <;> omega
  · intro h
    simp only [jam, if_pos h, List.take_length]
  · intro h hmem
    have hlen : (List.replicate n 0 : List ℕ).length = n := List.length_replicate n 0
    have hcase : jam bs (List.replicate n 0) =
        bs ++ (List.replicate n 0 : List ℕ).drop bs.length := by
      simp only [jam, hlen, if_pos h, List.take_length]
    rw [hcase, List.drop_replicate]
    have : n - bs.length = (n - bs.length - 1) + 1 := by omega
    rw [this, List.replicate_succ]
    exact takeWhile_append_zero bs _ hmem
  · intro h hn
    have hlen : (List.replicate n 0 : List ℕ).length = n := List.length_replicate n 0
    simp only [jam, hlen, if_neg (by omega : ¬ bs.length < n)]
    rw [List.drop_replicate]
    have : n - (n - 1) = 1 := by omega
    rw [this]
    rfl

/-- C8 witness: a two-byte name round-trips through the 101-byte
`chName1` buffer; a 102-byte name is truncated to 100 bytes plus the
null terminator. -/
theorem c8_witness :
    (jam (strBytes "ab") (List.replicate 101 0)).takeWhile (fun x => decide (x ≠ 0)) =
      strBytes "ab" ∧
    jam (List.replicate 102 7) (List.replicate 101 0) =
      (List.replicate 102 7).take 100 ++ [0] :=
  ⟨(c8_jam_buffer_safe (strBytes "ab") (List.replicate 101 0) 101).2.2.1
      (by decide) (by decide),
   (c8_jam_buffer_safe (List.replicate 102 7) (List.replicate 101 0) 101).2.2.2
      (by simp) (by omega)⟩

/-! ## C10: the final restriction makes the wire conversion total -/

theorem rustParseU16_imp_u32 {s : String} {p : ℕ} (h : rustParseU16 s = some p) :
    rustParseU32 s = some p := by
  simp only [rustParseU16, Option.bind_eq_some] at h
  obtain ⟨n, hn, hif⟩ := h
  by_cases hle : n ≤ 65535
  · rw [if_pos hle] at hif
    injection hif with hnp
    subst hnp
    simp [rustParseU32, hn, show n ≤ 4294967295 by omega]
  · rw [if_neg hle] at hif
    exact absurd hif (by simp)

/-- C10: every item that survives the final catalog restriction
(parseable 16-bit PLU, UPC with a well-formed byte slice `3..8`)
converts to the wire record without panicking: the PLU `unwrap` and
32-bit parse, and the UPC slice `unwrap`, all succeed. -/
theorem c10_conversion_total :
    ∀ (dumpInternal : Bool) (item : ProductData),
      finalKeep dumpInternal item = true → (toTD item).isSome = true := by
  intro d item h
  cases hplu : item.plu with
  | none => simp [finalKeep, hplu] at h
  | some s =>
    cases hparse : rustParseU16 s with
    | none => simp [finalKeep, hplu, hparse] at h
    | some p =>
      simp only [finalKeep, hplu, hparse] at h
      have hsl : (strGet item.upc 3 8).isSome = true := by
        by_cases hcond : (!d && decide (p < 1000)) = true
        · rw [if_pos hcond] at h; simp at h
        · rw [if_neg hcond] at h; exact h
      simp only [toTD, hplu, rustParseU16_imp_u32 hparse]
      cases hget : strGet item.upc 3 8 with
      | none => rw [hget] at hsl; simp at hsl
      | some code => rfl

/-- C10 witness: a surviving item converts successfully. -/
theorem c10_witness :
    (toTD ⟨"0020123456789", "Turkey", none, false, some "1001", 1, none⟩).isSome = true :=
  c10_conversion_total true ⟨"0020123456789", "Turkey", none, false, some "1001", 1, none⟩
    (by decide)

/-! ## Driver step lemmas -/

theorem push_plu_fields (sendOk : Bool) (s : Scale) :
    (push_plu sendOk s).1.product_idx = s.product_idx ∧
    (push_plu sendOk s).1.plus_downloaded = s.plus_downloaded ∧
    (push_plu sendOk s).1.products = s.products ∧
    (push_plu sendOk s).1.should_delete = s.should_delete ∧
    (push_plu sendOk s).1.delete_completed = s.delete_completed ∧
    (push_plu sendOk s).1.ip = s.ip := by
  unfold push_plu
  split_ifs <;> simp

theorem pushAdvance_fields (sendOk : Bool) (s : Scale) :
    ((pushAdvance sendOk s).1.product_idx = s.product_idx + 1 ∨
      (pushAdvance sendOk s).1.product_idx = s.product_idx) ∧
    (pushAdvance sendOk s).1.plus_downloaded = s.plus_downloaded ∧
    (pushAdvance sendOk s).1.products = s.products ∧
    (pushAdvance sendOk s).1.should_delete = s.should_delete ∧
    (pushAdvance sendOk s).1.delete_completed = s.delete_completed := by
  unfold pushAdvance push_plu
  split_ifs <;> simp
theorem delete_plus_fields (s : Scale) :
    (delete_plus s).1.product_idx = s.product_idx ∧
    (delete_plus s).1.plus_downloaded = s.plus_downloaded ∧
    (delete_plus s).1.products = s.products ∧
    (delete_plus s).1.should_delete = s.should_delete ∧
    (delete_plus s).1.delete_completed = s.delete_completed := by
  unfold delete_plus
  split_ifs <;> simp

theorem stateStep_fields (st : DfState) (sendOk : Bool) (s : Scale) :
    ((stateStep st sendOk s).1.product_idx = s.product_idx + 1 ∨
      (stateStep st sendOk s).1.product_idx = s.product_idx) ∧
    (stateStep st sendOk s).1.plus_downloaded = s.plus_downloaded ∧
    (stateStep st sendOk s).1.products = s.products ∧
    (stateStep st sendOk s).1.should_delete = s.should_delete ∧
    (stateStep st sendOk s).1.delete_completed = s.delete_completed := by
  unfold stateStep
  cases st
  case CONNECT =>
    dsimp only
    by_cases hdel : s.should_delete = true
    · rw [if_pos hdel]
      obtain ⟨d1, d2, d3, d4, d5⟩ := delete_plus_fields { s with state := DfState.CONNECT }
      exact ⟨Or.inr d1, d2, d3, d4, d5⟩
    · rw [if_neg hdel]
      obtain ⟨p1, p2, p3, p4, p5, -⟩ := push_plu_fields sendOk { s with state := DfState.CONNECT }
      rcases hpp : push_plu sendOk { s with state := DfState.CONNECT } with ⟨s', effs, r⟩
      rw [hpp] at p1 p2 p3 p4 p5
      dsimp only at p1 p2 p3 p4 p5
      cases r with
      | error e => exact ⟨Or.inr p1, p2, p3, p4, p5⟩
      | ok b =>
        cases b with
        | false => exact ⟨Or.inr p1, p2, p3, p4, p5⟩
        | true => exact ⟨Or.inl (by rw [← p1]), p2, p3, p4, p5⟩
  all_goals exact ⟨Or.inr rfl, rfl, rfl, rfl, rfl⟩

/-- The successful-send shape of the shared ack-push block: connected
and with items remaining, the item under the cursor is sent and the
cursor advances. -/
theorem pushAdvance_push (s : Scale) (hstate : s.state = DfState.CONNECT)
    (hlt : s.product_idx < s.products.length) :
    pushAdvance true s =
      ({ s with last_send_action := DfAction.DOWNLOAD, product_idx := s.product_idx + 1 },
        [Effect.sendPLU s.ip s.product_idx]) := by
  unfold pushAdvance push_plu
  rw [if_neg (by omega), if_neg (by simp [hstate])]
  rfl

/-- The exhausted shape of the shared ack-push block: with the cursor
past the end nothing is sent, yet the cursor still advances. -/
theorem pushAdvance_noop (sendOk : Bool) (s : Scale)
    (hge : s.products.length ≤ s.product_idx) :
    pushAdvance sendOk s = ({ s with product_idx := s.product_idx + 1 }, []) := by
  unfold pushAdvance push_plu
  rw [if_pos hge]

theorem stepOp_fields (op : ScaleOp) (s : Scale) :
    ((stepOp op s).product_idx = s.product_idx + 1 ∨
      (stepOp op s).product_idx = s.product_idx) ∧
    s.plus_downloaded ≤ (stepOp op s).plus_downloaded := by
  cases op with
  | recvDownload sendOk =>
    obtain ⟨h1, h2, -⟩ := pushAdvance_fields sendOk
      { s with last_recv_action := DfAction.DOWNLOAD,
               plus_downloaded := s.plus_downloaded + 1 }
    simp only [stepOp, applyOp, recvDownloadStep]
    constructor
    · simpa using h1
    · simp only [h2]; omega
  | recvDeleteAll name sendOk =>
    simp only [stepOp, applyOp, recvDeleteAllStep]
    by_cases hw : strStartsWith name "W" = true
    · obtain ⟨h1, h2, -⟩ := pushAdvance_fields sendOk
        { s with last_recv_action := DfAction.DELETEALL, delete_completed := true }
      rw [if_pos hw]
      constructor
      · simpa using h1
      · simpa using le_of_eq h2.symm
    · rw [if_neg hw]
      exact ⟨Or.inr rfl, le_refl _⟩
  | recvOther a => exact ⟨Or.inr rfl, le_refl _⟩
  | stateCb st sendOk =>
    obtain ⟨h1, h2, -⟩ := stateStep_fields st sendOk s
    exact ⟨h1, le_of_eq h2.symm⟩
  | pollObserve =>
    simp only [stepOp, applyOp, pollStep]
    split_ifs <;> exact ⟨Or.inr rfl, le_refl _⟩

theorem runOps_mono :
    ∀ (ops : List ScaleOp) (s : Scale),
      s.product_idx ≤ (runOps s ops).product_idx ∧
        s.plus_downloaded ≤ (runOps s ops).plus_downloaded := by
  intro ops
  induction ops with
  | nil => intro s; exact ⟨le_refl _, le_refl _⟩
  | cons op rest ih =>
    intro s
    have h := stepOp_fields op s
    have h' := ih (stepOp op s)
    have hrw : runOps s (op :: rest) = runOps (stepOp op s) rest := rfl
    rw [hrw]
    rcases h with ⟨h1 | h1, h2⟩ <;> exact ⟨by omega, by omega⟩

/-- Operations that cannot break an established completion: everything
except a further download acknowledgment or a sentinel-named delete-all
acknowledgment. -/
def preservesCompletion (op : ScaleOp) : Bool :=
  match op with
  | .recvDownload _ => false
  | .recvDeleteAll name _ => !strStartsWith name "W"
  | _ => true

theorem stepOp_complete (op : ScaleOp) (s : Scale)
    (hop : preservesCompletion op = true) (hc : s.complete = true) :
    (stepOp op s).complete = true := by
  cases op with
  | recvDownload sendOk => simp [preservesCompletion] at hop
  | recvDeleteAll name sendOk =>
    simp only [preservesCompletion, Bool.not_eq_true'] at hop
    simp only [stepOp, applyOp, recvDeleteAllStep, hop, Bool.false_eq_true, if_false]
    simpa [Scale.complete] using hc
  | recvOther a => simpa [stepOp, applyOp, recvOtherStep, Scale.complete] using hc
  | stateCb st sendOk =>
    obtain ⟨-, h2, h3, h4, h5⟩ := stateStep_fields st sendOk s
    simp only [stepOp, applyOp]
    unfold Scale.complete at hc ⊢
    rw [h2, h3, h4, h5]
    exact hc
  | pollObserve =>
    simp only [stepOp, applyOp, pollStep]
    split_ifs <;> simpa [Scale.complete] using hc

theorem runOps_complete :
    ∀ (ops : List ScaleOp) (s : Scale), s.complete = true →
      (∀ op ∈ ops, preservesCompletion op = true) → (runOps s ops).complete = true := by
  intro ops
  induction ops with
  | nil => intro s hc _; exact hc
  | cons op rest ih =>
    intro s hc hops
    have hrw : runOps s (op :: rest) = runOps (stepOp op s) rest := rfl
    rw [hrw]
    exact ih (stepOp op s)
      (stepOp_complete op s (hops op (List.mem_cons_self op rest)) hc)
      (fun o ho => hops o (List.mem_cons_of_mem op ho))

/-! ## C5 / C6: the download path and its monotonicity -/

/-- A 3-item catalog for Example 2 and the session runs. -/
def threeItems : List ProductData :=
  [⟨"U1", "Apples", none, false, some "1001", 1, none⟩,
   ⟨"U2", "Bacon", none, false, some "1002", 1, none⟩,
   ⟨"U3", "Cheese", none, false, some "1003", 1, none⟩]

/-- A freshly added device with `should_delete = false` holding the
3-item catalog. -/
def demoScale : Scale :=
  { Scale.new "10.1.1.10" with should_delete := false, products := threeItems }

/-- C5: a download acknowledgment increments the acknowledgment
cursor; while the cursor is below the item count the next
unacknowledged item is pushed, and once acknowledgments reach the item
count nothing further is pushed and the completion predicate holds.  On
the 3-item catalog with `should_delete = false`, completion is true
after 3 acknowledgments and false after 2. -/
theorem c5_download_ack :
    (∀ s : Scale, s.state = DfState.CONNECT → s.product_idx = s.plus_downloaded + 1 →
      s.should_delete = s.delete_completed →
      (applyOp (ScaleOp.recvDownload true) s).1.plus_downloaded = s.plus_downloaded + 1 ∧
      (applyOp (ScaleOp.recvDownload true) s).1.product_idx = s.product_idx + 1 ∧
      (applyOp (ScaleOp.recvDownload true) s).2 =
        (if s.plus_downloaded + 1 < s.products.length then
          [Effect.sendPLU s.ip (s.plus_downloaded + 1)] else []) ∧
      (s.plus_downloaded + 1 = s.products.length →
        (applyOp (ScaleOp.recvDownload true) s).2 = [] ∧
        (applyOp (ScaleOp.recvDownload true) s).1.complete = true)) ∧
    ((runOps demoScale (ScaleOp.stateCb DfState.CONNECT true ::
        List.replicate 3 (ScaleOp.recvDownload true))).complete = true ∧
     (runOps demoScale (ScaleOp.stateCb DfState.CONNECT true ::
        List.replicate 2 (ScaleOp.recvDownload true))).complete = false) := by
  constructor
  · intro s h1 h2 h3
    have hrec : applyOp (ScaleOp.recvDownload true) s =
        pushAdvance true { s with last_recv_action := DfAction.DOWNLOAD,
                                  plus_downloaded := s.plus_downloaded + 1 } := rfl
    by_cases hlt : s.plus_downloaded + 1 < s.products.length
    · rw [hrec, pushAdvance_push _ (by simp [h1]) (by simp; omega)]
      refine ⟨by simp, by simp, ?_, ?_⟩
      · rw [if_pos hlt]
        simp [h2]
      · intro heq; omega
    · rw [hrec, pushAdvance_noop true _ (by simp; omega)]
      refine ⟨by simp, by simp, by rw [if_neg hlt], ?_⟩
      · intro heq
        refine ⟨rfl, ?_⟩
        simp [Scale.complete, heq, h3]
  · exact ⟨by decide, by decide⟩

/-- The device of the C5 witness: connected, one item acknowledged. -/
def c5ScaleW : Scale :=
  { demoScale with state := DfState.CONNECT, plus_downloaded := 1, product_idx := 2 }

/-- C5 witness: the second acknowledgment on the 3-item session. -/
theorem c5_witness :
    (applyOp (ScaleOp.recvDownload true) c5ScaleW).1.plus_downloaded =
        c5ScaleW.plus_downloaded + 1 ∧
    (applyOp (ScaleOp.recvDownload true) c5ScaleW).1.product_idx =
        c5ScaleW.product_idx + 1 ∧
    (applyOp (ScaleOp.recvDownload true) c5ScaleW).2 =
      (if c5ScaleW.plus_downloaded + 1 < c5ScaleW.products.length then
        [Effect.sendPLU c5ScaleW.ip (c5ScaleW.plus_downloaded + 1)] else []) ∧
    (c5ScaleW.plus_downloaded + 1 = c5ScaleW.products.length →
      (applyOp (ScaleOp.recvDownload true) c5ScaleW).2 = [] ∧
      (applyOp (ScaleOp.recvDownload true) c5ScaleW).1.complete = true) :=
  c5_download_ack.1 c5ScaleW rfl rfl rfl

/-- C6 counterexample: on the 3-item, `should_delete = false` session
the completion predicate holds after three download acknowledgments but
reverts to false when a fourth (spurious/duplicate) acknowledgment
callback arrives — completion is not monotone over arbitrary
callback sequences. -/
theorem c6_counterexample :
    (runOps demoScale (ScaleOp.stateCb DfState.CONNECT true ::
        List.replicate 3 (ScaleOp.recvDownload true))).complete = true ∧
    (runOps demoScale ((ScaleOp.stateCb DfState.CONNECT true ::
        List.replicate 3 (ScaleOp.recvDownload true)) ++
          [ScaleOp.recvDownload true])).complete = false :=
  ⟨by decide, by decide⟩

/-- C6 (amended): over every operation sequence both cursors are
monotonically non-decreasing; and the completion predicate, once true,
stays true over every continuation that contains no further download
acknowledgment and no sentinel delete-all acknowledgment (the code does
not guard against such spurious callbacks, which do break it). -/
theorem c6_monotone_amended :
    (∀ (s : Scale) (ops : List ScaleOp),
      s.product_idx ≤ (runOps s ops).product_idx ∧
        s.plus_downloaded ≤ (runOps s ops).plus_downloaded) ∧
    (∀ (s : Scale) (ops : List ScaleOp), s.complete = true →
      (∀ op ∈ ops, preservesCompletion op = true) →
      (runOps s ops).complete = true) :=
  ⟨fun s ops => runOps_mono ops s, fun s ops hc hops => runOps_complete ops s hc hops⟩

/-- The device of the C6 witness: fully downloaded. -/
def c6ScaleW : Scale :=
  { demoScale with state := DfState.CONNECT, plus_downloaded := 3, product_idx := 4 }

/-- C6 witness: a completed device stays complete across further state
callbacks and poll observations. -/
theorem c6_witness :
    (runOps c6ScaleW
      [ScaleOp.recvOther DfAction.NOTHING, ScaleOp.pollObserve,
       ScaleOp.stateCb DfState.RECEIVETIMEOVER true]).complete = true :=
  c6_monotone_amended.2 c6ScaleW
    [ScaleOp.recvOther DfAction.NOTHING, ScaleOp.pollObserve,
     ScaleOp.stateCb DfState.RECEIVETIMEOVER true]
    (by decide) (by decide)

/-! ## C7: the poll loop's timeout behaviour -/

theorem pollLoop_error_facts (t : ℕ) (doneAt : ℕ → Bool) :
    ∀ (fuel k e : ℕ), pollLoop t doneAt k fuel = some (Except.error e) →
      t ≠ 0 ∧ t < e ∧ doneAt e = false := by
  intro fuel
  induction fuel with
  | zero => intro k e h; simp [pollLoop] at h
  | succ fuel ih =>
    intro k e h
    simp only [pollLoop] at h
    by_cases hd : doneAt k = true
    · rw [if_pos hd] at h; simp at h
    · rw [if_neg hd] at h
      by_cases ht : t ≠ 0 ∧ t < k
      · rw [if_pos ht] at h
        simp only [Option.some.injEq, Except.error.injEq] at h
        subst h
        exact ⟨ht.1, ht.2, Bool.not_eq_true _ ▸ hd⟩
      · rw [if_neg ht] at h
        exact ih (k + 1) e h

theorem pollLoop_times_out (t : ℕ) (ht : t ≠ 0) (doneAt : ℕ → Bool)
    (hdone : ∀ k, doneAt k = false) :
    ∀ (fuel k : ℕ), k ≤ t + 1 → t + 2 - k ≤ fuel →
      pollLoop t doneAt k fuel = some (Except.error (t + 1)) := by
  intro fuel
  induction fuel with
  | zero => intro k hk hf; omega
  | succ fuel ih =>
    intro k hk hf
    simp only [pollLoop, hdone k, Bool.false_eq_true, if_false]
    by_cases hke : k = t + 1
    · subst hke
      rw [if_pos ⟨ht, by omega⟩]
    · rw [if_neg (by omega : ¬ (t ≠ 0 ∧ t < k))]
      exact ih (k + 1) (by omega) (by omega)

/-- C7 counterexample: with `timeout = 5` and no callback ever arriving
the loop exits with Timeout at 6 elapsed seconds — not strictly before
6 seconds as claimed.  (`as_secs()` floors, and the guard is a strict
`>`, so the first failing iteration is `k = 6`.) -/
theorem c7_counterexample :
    pollLoop 5 (fun _ => false) 0 100 = some (Except.error 6) ∧ ¬ (6 < 6) :=
  ⟨rfl, by omega⟩

/-- C7 (amended): the loop returns Timeout exactly when `timeout ≠ 0`
and the whole-second elapsed reading exceeds the timeout while the
devices are still incomplete; with `timeout = 5` and no callbacks it
returns at 6 elapsed seconds (≥ 6 s and < 7 s of real time), never
earlier. -/
theorem c7_timeout_amended :
    (∀ (t : ℕ) (doneAt : ℕ → Bool) (fuel e : ℕ),
      pollLoop t doneAt 0 fuel = some (Except.error e) →
      t ≠ 0 ∧ t < e ∧ doneAt e = false) ∧
    (∀ (t : ℕ) (doneAt : ℕ → Bool) (fuel : ℕ), t ≠ 0 → (∀ k, doneAt k = false) →
      t + 2 ≤ fuel → pollLoop t doneAt 0 fuel = some (Except.error (t + 1))) :=
  ⟨fun t doneAt fuel e h => pollLoop_error_facts t doneAt fuel 0 e h,
   fun t doneAt fuel ht hdone hf => pollLoop_times_out t ht doneAt hdone fuel 0 (by omega) (by omega)⟩

/-- C7 witness: the amended statement at `timeout = 5`, no callbacks. -/
theorem c7_witness :
    pollLoop 5 (fun _ => false) 0 100 = some (Except.error (5 + 1)) :=
  c7_timeout_amended.2 5 (fun _ => false) 100 (by omega) (fun _ => rfl) (by omega)

/-! ## C9: send-failure isolation in the registry -/

/-- Registry lookup (the `scales.get(&ip)` of the callbacks). -/
def lookupReg (ip : String) : Registry → Option Scale
  | [] => none
  | (k, s) :: rest => if k = ip then some s else lookupReg ip rest

theorem updateScale_spec (ip : String) (f : Scale → Scale × List Effect) :
    ∀ (reg : Registry) (s : Scale), lookupReg ip reg = some s →
      ∃ reg', updateScale ip f reg = some (reg', (f s).2) ∧
        lookupReg ip reg' = some (f s).1 ∧
        (∀ ip', ip' ≠ ip → lookupReg ip' reg' = lookupReg ip' reg) ∧
        pollList reg' = pollList reg := by
  intro reg
  induction reg with
  | nil => intro s h; simp [lookupReg] at h
  | cons e rest ih =>
    obtain ⟨k, sc⟩ := e
    intro s h
    by_cases hk : k = ip
    · rw [lookupReg, if_pos hk] at h
      simp only [Option.some.injEq] at h
      subst h
      refine ⟨(k, (f sc).1) :: rest, ?_, ?_, ?_, ?_⟩
      · rw [updateScale, if_pos hk]
      · rw [lookupReg, if_pos hk]
      · intro ip' hne
        rw [lookupReg, lookupReg, if_neg (by rw [hk]; exact fun he => hne he.symm),
          if_neg (by rw [hk]; exact fun he => hne he.symm)]
      · rfl
    · rw [lookupReg, if_neg hk] at h
      obtain ⟨rest', hup, hlook, hother, hpoll⟩ := ih s h
      refine ⟨(k, sc) :: rest', ?_, ?_, ?_, ?_⟩
      · rw [updateScale, if_neg hk, hup]; rfl
      · rw [lookupReg, if_neg hk]; exact hlook
      · intro ip' hne
        by_cases hk' : k = ip'
        · rw [lookupReg, lookupReg, if_pos hk', if_pos hk']
        · rw [lookupReg, lookupReg, if_neg hk', if_neg hk']
          exact hother ip' hne
      · simp only [pollList, List.map_cons]
        rw [show rest'.map Prod.fst = rest.map Prod.fst from hpoll]

/-- The failing-send shape of the download-acknowledgment handler:
connected, items remaining, vendor send fails. -/
theorem recvDownloadStep_fail (s : Scale) (hstate : s.state = DfState.CONNECT)
    (hlt : s.product_idx < s.products.length) :
    recvDownloadStep false s =
      ({ s with last_recv_action := DfAction.DOWNLOAD,
                plus_downloaded := s.plus_downloaded + 1,
                last_send_action := DfAction.DOWNLOAD },
        [Effect.sendPLU s.ip s.product_idx, Effect.disconnect s.ip]) := by
  unfold recvDownloadStep pushAdvance push_plu
  rw [if_neg (by simp; omega), if_neg (by simp [hstate])]
  rfl

/-- C9 (amended): a vendor send failure on one device produces effects
addressed to that device only — the attempted send followed by its
disconnect — and leaves every sibling record untouched; however the
device stays registered and polled (it is not removed from the polling
set, contrary to the claim). -/
theorem c9_isolation_amended :
    ∀ (reg : Registry) (ip : String) (s : Scale),
      lookupReg ip reg = some s →
      s.state = DfState.CONNECT →
      s.product_idx < s.products.length →
      ∃ reg',
        registryRecvDownload ip false reg =
          some (reg', [Effect.sendPLU s.ip s.product_idx, Effect.disconnect s.ip]) ∧
        (∀ e ∈ [Effect.sendPLU s.ip s.product_idx, Effect.disconnect s.ip],
          Effect.ipOf e = s.ip) ∧
        lookupReg ip reg' =
          some { s with last_recv_action := DfAction.DOWNLOAD,
                        plus_downloaded := s.plus_downloaded + 1,
                        last_send_action := DfAction.DOWNLOAD } ∧
        (∀ ip', ip' ≠ ip → lookupReg ip' reg' = lookupReg ip' reg) ∧
        pollList reg' = pollList reg ∧ ip ∈ pollList reg' := by
  intro reg ip s hlook hstate hlt
  obtain ⟨reg', hup, hlook', hother, hpoll⟩ :=
    updateScale_spec ip (fun sc => recvDownloadStep false sc) reg s hlook
  rw [recvDownloadStep_fail s hstate hlt] at hup hlook'
  refine ⟨reg', hup, ?_, hlook', hother, hpoll, ?_⟩
  · intro e he
    simp only [List.mem_cons, List.not_mem_nil, or_false] at he
    rcases he with rfl | rfl <;> rfl
  · rw [hpoll]
    clear hup hlook' hother hpoll
    induction reg with
    | nil => simp [lookupReg] at hlook
    | cons e rest ih =>
      obtain ⟨k, sc⟩ := e
      by_cases hk : k = ip
      · simp [pollList, hk]
      · rw [lookupReg, if_neg hk] at hlook
        simp only [pollList, List.map_cons, List.mem_cons]
        exact Or.inr (ih hlook)

/-- The two devices of the C9 scenario. -/
def scaleA : Scale :=
  { demoScale with ip := "10.0.0.1", state := DfState.CONNECT, product_idx := 1 }

/-- The sibling device of the C9 scenario. -/
def scaleB : Scale :=
  { demoScale with ip := "10.0.0.2", state := DfState.CONNECT, product_idx := 1 }

/-- A two-device registry. -/
def regAB : Registry :=
  [("10.0.0.1", scaleA), ("10.0.0.2", scaleB)]

/-- The registry after device A's failing send. -/
def c9Res : Registry × List Effect :=
  (registryRecvDownload "10.0.0.1" false regAB).getD ([], [])

/-- C9 counterexample: after a vendor send failure the device is
disconnected, but it is *not* excluded from further polling — it is
still registered, still in the poll list, and keeps the registry
incomplete. -/
theorem c9_counterexample :
    (registryRecvDownload "10.0.0.1" false regAB).isSome = true ∧
    Effect.disconnect "10.0.0.1" ∈ c9Res.2 ∧
    "10.0.0.1" ∈ pollList c9Res.1 ∧
    (lookupReg "10.0.0.1" c9Res.1).isSome = true ∧
    allComplete c9Res.1 = false := by
  refine ⟨by decide, by decide, by decide, by decide, by decide⟩

/-- C9 witness: the amended statement on the two-device registry. -/
theorem c9_witness :
    ∃ reg',
      registryRecvDownload "10.0.0.1" false regAB =
        some (reg', [Effect.sendPLU scaleA.ip scaleA.product_idx,
                     Effect.disconnect scaleA.ip]) ∧
      (∀ e ∈ [Effect.sendPLU scaleA.ip scaleA.product_idx,
              Effect.disconnect scaleA.ip], Effect.ipOf e = scaleA.ip) ∧
      lookupReg "10.0.0.1" reg' =
        some { scaleA with last_recv_action := DfAction.DOWNLOAD,
                           plus_downloaded := scaleA.plus_downloaded + 1,
                           last_send_action := DfAction.DOWNLOAD } ∧
      (∀ ip', ip' ≠ "10.0.0.1" → lookupReg ip' reg' = lookupReg ip' regAB) ∧
      pollList reg' = pollList regAB ∧ "10.0.0.1" ∈ pollList reg' :=
  c9_isolation_amended regAB "10.0.0.1" scaleA (by decide) (by decide) (by decide)

/-! ## C2: the ordering the allocator actually applies -/

/-- Modelled from the spec claim, for comparison: a single stable sort
on section id (ties left in catalog order). -/
def claimedOrder (keep : String → Bool) (items : List ProductData) : List ProductData :=
  (items.filter (keepItem keep)).insertionSort secLE

/-- The order the code guarantees: section id ascending, ties in
description (byte-lexicographic) order. -/
def secDescLex (x y : ProductData) : Prop :=
  secKey x ≤ secKey y ∧ (secKey x = secKey y → descLE x y)

/-- Two items sharing a section whose descriptions invert their catalog
order. -/
def itemSortA : ProductData := ⟨"UA", "B", none, false, none, 1, some 1⟩

/-- The sibling of `itemSortA` with the earlier description. -/
def itemSortB : ProductData := ⟨"UB", "A", none, false, none, 1, some 1⟩

/-- C2 counterexample: on two items of the same section the allocator
orders by description, not by catalog order — the produced order
differs from a stable sort on section id alone. -/
theorem c2_counterexample :
    sortItems (fun _ => true) [itemSortA, itemSortB] = [itemSortB, itemSortA] ∧
    claimedOrder (fun _ => true) [itemSortA, itemSortB] = [itemSortA, itemSortB] ∧
    sortItems (fun _ => true) [itemSortA, itemSortB] ≠
      claimedOrder (fun _ => true) [itemSortA, itemSortB] :=
  ⟨by decide, by decide, by decide⟩

theorem orderedInsert_secDescLex (a : ProductData) :
    ∀ L : List ProductData, L.Pairwise secDescLex → (∀ b ∈ L, descLE a b) →
      (L.orderedInsert secLE a).Pairwise secDescLex := by
  intro L
  induction L with
  | nil => intro _ _; simp [secDescLex]
  | cons b L ih =>
    intro hpair hdesc
    rw [List.pairwise_cons] at hpair
    obtain ⟨hbL, hLpair⟩ := hpair
    by_cases hab : secLE a b
    · rw [List.orderedInsert, if_pos hab]
      rw [List.pairwise_cons]
      constructor
      · intro c hc
        rcases List.mem_cons.mp hc with rfl | hc
        · exact ⟨hab, fun _ => hdesc c (List.mem_cons_self c L)⟩
        · have hbc := hbL c hc
          exact ⟨le_trans hab hbc.1, fun _ => hdesc c (List.mem_cons_of_mem b hc)⟩
      · rw [List.pairwise_cons]
        exact ⟨hbL, hLpair⟩
    · rw [List.orderedInsert, if_neg hab]
      rw [List.pairwise_cons]
      have hba : secKey b < secKey a := by
        unfold secLE at hab
        omega
      constructor
      · intro c hc
        rcases (List.mem_orderedInsert secLE).mp hc with rfl | hc
        · exact ⟨le_of_lt hba, fun he => absurd he (by omega)⟩
        · exact hbL c hc
      · exact ih hLpair (fun c hc => hdesc c (List.mem_cons_of_mem b hc))

theorem insertionSort_secDescLex :
    ∀ l : List ProductData, l.Pairwise descLE →
      (l.insertionSort secLE).Pairwise secDescLex := by
  intro l
  induction l with
  | nil => intro _; simp
  | cons a l ih =>
    intro hpair
    rw [List.pairwise_cons] at hpair
    obtain ⟨hal, hlpair⟩ := hpair
    rw [List.insertionSort]
    exact orderedInsert_secDescLex a (l.insertionSort secLE) (ih hlpair)
      (fun b hb => hal b ((List.mem_insertionSort secLE).mp hb))

/-- The lexicographic key the two-stage sort realises: section id
first, description (byte order) second. -/
def lexLE (x y : ProductData) : Prop :=
  secKey x < secKey y ∨ (secKey x = secKey y ∧ descLE x y)

instance : DecidableRel lexLE := fun x y =>
  inferInstanceAs (Decidable (secKey x < secKey y ∨ (secKey x = secKey y ∧ descLE x y)))

theorem lexLE_iff_not_secLE {a b : ProductData} (hab : ¬ descLE a b) :
    lexLE a b ↔ ¬ secLE b a := by
  unfold lexLE secLE
  constructor
  · rintro (h | ⟨-, h⟩)
    · omega
    · exact absurd h hab
  · intro h
    exact Or.inl (by omega)

/-- Inserting an element that is description-below a whole list gives
the same result under the section order and under the lexicographic
order. -/
theorem orderedInsert_sec_eq_lex :
    ∀ (S : List ProductData) (a : ProductData), (∀ x ∈ S, descLE a x) →
      S.orderedInsert secLE a = S.orderedInsert lexLE a := by
  intro S
  induction S with
  | nil => intro a _; rfl
  | cons x S' ih =>
    intro a hall
    have hax : descLE a x := hall x (List.mem_cons_self x S')
    by_cases hsec : secLE a x
    · have hlex : lexLE a x := by
        unfold secLE at hsec
        rcases lt_or_eq_of_le hsec with h | h
        · exact Or.inl h
        · exact Or.inr ⟨h, hax⟩
      rw [List.orderedInsert, if_pos hsec, List.orderedInsert, if_pos hlex]
    · have hnlex : ¬ lexLE a x := by
        rintro (h | ⟨h, -⟩) <;> exact hsec (by unfold secLE; omega)
      rw [List.orderedInsert, if_neg hsec, List.orderedInsert, if_neg hnlex,
        ih a (fun y hy => hall y (List.mem_cons_of_mem x hy))]

/-- A section-order insertion and a lexicographic insertion of a
description-greater element commute. -/
theorem orderedInsert_sec_lex_comm :
    ∀ (T : List ProductData) (a b : ProductData), ¬ descLE a b →
      (T.orderedInsert lexLE a).orderedInsert secLE b =
        (T.orderedInsert secLE b).orderedInsert lexLE a := by
  intro T
  induction T with
  | nil =>
    intro a b hab
    simp only [List.orderedInsert]
    by_cases hba : secLE b a
    · rw [if_pos hba, if_neg (fun h => ((lexLE_iff_not_secLE hab).mp h) hba)]
    · rw [if_neg hba, if_pos ((lexLE_iff_not_secLE hab).mpr hba)]
  | cons x T' ih =>
    intro a b hab
    by_cases hax : lexLE a x <;> by_cases hbx : secLE b x
    · -- a and b both land before x
      have h1 : (x :: T').orderedInsert lexLE a = a :: x :: T' := by
        rw [List.orderedInsert, if_pos hax]
      have h2 : (x :: T').orderedInsert secLE b = b :: x :: T' := by
        rw [List.orderedInsert, if_pos hbx]
      rw [h1, h2]
      by_cases hba : secLE b a
      · rw [List.orderedInsert, if_pos hba, List.orderedInsert,
          if_neg (fun h => ((lexLE_iff_not_secLE hab).mp h) hba), h1]
      · rw [List.orderedInsert, if_neg hba, h2, List.orderedInsert,
          if_pos ((lexLE_iff_not_secLE hab).mpr hba)]
    · -- a before x, b after x
      have h1 : (x :: T').orderedInsert lexLE a = a :: x :: T' := by
        rw [List.orderedInsert, if_pos hax]
      have h2 : (x :: T').orderedInsert secLE b = x :: T'.orderedInsert secLE b := by
        rw [List.orderedInsert, if_neg hbx]
      have hba : ¬ secLE b a := by
        have h3 : secKey a ≤ secKey x := by
          rcases hax with h | ⟨h, -⟩
          · exact le_of_lt h
          · exact le_of_eq h
        unfold secLE at hbx ⊢
        omega
      rw [h1, h2, List.orderedInsert, if_neg hba, h2, List.orderedInsert, if_pos hax]
    · -- b before x, a after x
      have h1 : (x :: T').orderedInsert lexLE a = x :: T'.orderedInsert lexLE a := by
        rw [List.orderedInsert, if_neg hax]
      have h2 : (x :: T').orderedInsert secLE b = b :: x :: T' := by
        rw [List.orderedInsert, if_pos hbx]
      have hnab : ¬ lexLE a b := by
        intro h
        refine hax (Or.inl ?_)
        have h3 : secKey a < secKey b := by
          rcases h with h | ⟨-, hd⟩
          · exact h
          · exact absurd hd hab
        unfold secLE at hbx
        omega
      rw [h1, h2, List.orderedInsert, if_pos hbx, List.orderedInsert, if_neg hnab, h1]
    · -- both after x
      have h1 : (x :: T').orderedInsert lexLE a = x :: T'.orderedInsert lexLE a := by
        rw [List.orderedInsert, if_neg hax]
      have h2 : (x :: T').orderedInsert secLE b = x :: T'.orderedInsert secLE b := by
        rw [List.orderedInsert, if_neg hbx]
      rw [h1, h2, List.orderedInsert, if_neg hbx, List.orderedInsert, if_neg hax,
        ih a b hab]

/-- Section-sorting a description-ordered insertion is a lexicographic
insertion into the section-sorted list. -/
theorem insertionSort_sec_orderedInsert_desc :
    ∀ (D : List ProductData), D.Pairwise descLE → ∀ a : ProductData,
      (D.orderedInsert descLE a).insertionSort secLE =
        (D.insertionSort secLE).orderedInsert lexLE a := by
  intro D
  induction D with
  | nil => intro _ a; rfl
  | cons b D' ih =>
    intro hpair a
    rw [List.pairwise_cons] at hpair
    obtain ⟨hb, hD'⟩ := hpair
    by_cases hab : descLE a b
    · rw [List.orderedInsert, if_pos hab]
      show ((b :: D').insertionSort secLE).orderedInsert secLE a =
        ((b :: D').insertionSort secLE).orderedInsert lexLE a
      refine orderedInsert_sec_eq_lex _ a ?_
      intro x hx
      rcases List.mem_cons.mp ((List.mem_insertionSort secLE).mp hx) with rfl | hx
      · exact hab
      · exact bytesLE_trans _ _ _ hab (hb x hx)
    · rw [List.orderedInsert, if_neg hab]
      show ((D'.orderedInsert descLE a).insertionSort secLE).orderedInsert secLE b =
        ((b :: D').insertionSort secLE).orderedInsert lexLE a
      rw [ih hD' a, orderedInsert_sec_lex_comm _ a b hab]
      rfl

/-- The code's two-stage stable sort — description first, then section
id — is exactly the single stable sort under the lexicographic
(section id, description) key. -/
theorem insertionSort_desc_then_sec :
    ∀ l : List ProductData,
      (l.insertionSort descLE).insertionSort secLE = l.insertionSort lexLE := by
  intro l
  induction l with
  | nil => rfl
  | cons a l ih =>
    show ((l.insertionSort descLE).orderedInsert descLE a).insertionSort secLE =
      (l.insertionSort lexLE).orderedInsert lexLE a
    rw [insertionSort_sec_orderedInsert_desc _ (List.sorted_insertionSort descLE l) a, ih]

/-- C2 (amended): the allocator's ordering is exactly a single stable
sort of the filtered catalog under the lexicographic key (section id,
then description in Rust's byte order): equal-section ties are broken
by description, and only items equal on both keys keep their catalog
order.  In particular it is a permutation of the filtered catalog,
pairwise ordered by section id with description order within equal
sections. -/
theorem c2_sort_amended :
    ∀ (keep : String → Bool) (items : List ProductData),
      sortItems keep items = (items.filter (keepItem keep)).insertionSort lexLE ∧
      (sortItems keep items).Perm (items.filter (keepItem keep)) ∧
      (sortItems keep items).Pairwise secDescLex := by
  intro keep items
  refine ⟨insertionSort_desc_then_sec (items.filter (keepItem keep)), ?_, ?_⟩
  · exact (List.perm_insertionSort secLE _).trans (List.perm_insertionSort descLE _)
  · exact insertionSort_secDescLex _ (List.sorted_insertionSort descLE _)

/-! ## C4: output PLUs of one pass are pairwise distinct -/

/-- Every successful allocation step either keeps a parseable,
unclaimed, in-range PLU or assigns the probe value, extending the
correction list and both claim sets. -/
theorem allocStep_cases (st : AllocSt) (item : ProductData) (st₁ : AllocSt)
    (h : allocStep st item = some st₁) :
    (∃ s p, item.plu = some s ∧ rustParseU16 s = some p ∧ p ∉ st.seen ∧
      wrongRange item p = false ∧
      st₁ = ⟨st.existing, insert p st.seen, st.asg, st.out ++ [p]⟩) ∨
    (((∃ s p, item.plu = some s ∧ rustParseU16 s = some p) ∨ item.plu = none) ∧
      st₁ = ⟨(next_plu st.existing item).2,
             insert (next_plu st.existing item).1 st.seen,
             st.asg ++ [⟨item.upc, (next_plu st.existing item).1⟩],
             st.out ++ [(next_plu st.existing item).1]⟩) := by
  cases hplu : item.plu with
  | none =>
    right
    simp only [allocStep, hplu, Option.some.injEq] at h
    exact ⟨Or.inr rfl, h.symm⟩
  | some s =>
    cases hparse : rustParseU16 s with
    | none => simp [allocStep, hplu, hparse] at h
    | some p =>
      simp only [allocStep, hplu, hparse] at h
      by_cases hcond : p ∈ st.seen ∨ wrongRange item p = true
      · right
        rw [if_pos hcond] at h
        simp only [Option.some.injEq] at h
        exact ⟨Or.inl ⟨s, p, rfl, hparse⟩, h.symm⟩
      · left
        rw [if_neg hcond] at h
        simp only [Option.some.injEq] at h
        push_neg at hcond
        exact ⟨s, p, rfl, hparse, hcond.1,
          Bool.not_eq_true _ ▸ hcond.2, h.symm⟩

theorem allocFold_nodup :
    ∀ (l : List ProductData) (st st' : AllocSt),
      allocFold st l = some st' →
      (∀ x ∈ st.seen, x ∈ st.existing) →
      (∀ it ∈ l, ∀ s p, it.plu = some s → rustParseU16 s = some p → p ∈ st.existing) →
      st.out.Nodup →
      (∀ v ∈ st.out, v ∈ st.seen) →
      st'.out.Nodup := by
  intro l
  induction l with
  | nil =>
    intro st st' h hsub _ hnodup _
    simp only [allocFold, Option.some.injEq] at h
    exact h ▸ hnodup
  | cons item rest ih =>
    intro st st' h hsub hpre hnodup hcover
    simp only [allocFold] at h
    cases hstep : allocStep st item with
    | none => rw [hstep] at h; simp at h
    | some st₁ =>
      rw [hstep] at h
      rcases allocStep_cases st item st₁ hstep with
        ⟨s, p, hplu, hparse, hnotseen, hnw, rfl⟩ | ⟨-, rfl⟩
      · have hpex : p ∈ st.existing :=
          hpre item (List.mem_cons_self item rest) s p hplu hparse
        refine ih _ st' h ?_ ?_ ?_ ?_
        · intro x hx
          rcases Finset.mem_insert.mp hx with rfl | hx
          · exact hpex
          · exact hsub x hx
        · intro it hit s' p' h1 h2
          exact hpre it (List.mem_cons_of_mem item hit) s' p' h1 h2
        · refine List.Nodup.append hnodup (List.nodup_singleton p) ?_
          intro v hv hv'
          rcases List.mem_singleton.mp hv' with rfl
          exact hnotseen (hcover v hv)
        · intro v hv
          rcases List.mem_append.mp hv with hv | hv
          · exact Finset.mem_insert_of_mem (hcover v hv)
          · rcases List.mem_singleton.mp hv with rfl
            exact Finset.mem_insert_self v _
      · obtain ⟨hfloor, hnotin, hmin, hins⟩ := next_plu_spec st.existing item
        refine ih _ st' h ?_ ?_ ?_ ?_
        · intro x hx
          rw [hins]
          rcases Finset.mem_insert.mp hx with rfl | hx
          · exact Finset.mem_insert_self _ _
          · exact Finset.mem_insert_of_mem (hsub x hx)
        · intro it hit s' p' h1 h2
          rw [hins]
          exact Finset.mem_insert_of_mem
            (hpre it (List.mem_cons_of_mem item hit) s' p' h1 h2)
        · refine List.Nodup.append hnodup (List.nodup_singleton _) ?_
          intro v hv hv'
          have hveq := List.mem_singleton.mp hv'
          subst hveq
          exact hnotin (hsub _ (hcover _ hv))
        · intro v hv
          rcases List.mem_append.mp hv with hv | hv
          · exact Finset.mem_insert_of_mem (hcover v hv)
          · have hveq := List.mem_singleton.mp hv
            subst hveq
            exact Finset.mem_insert_self _ _

theorem seedPlus_mem :
    ∀ (l : List ProductData) (ex ex' : Finset ℕ), seedPlus ex l = some ex' →
      (∀ x ∈ ex, x ∈ ex') ∧
      (∀ it ∈ l, ∀ s p, it.plu = some s → rustParseU16 s = some p → p ∈ ex') := by
  intro l
  induction l with
  | nil =>
    intro ex ex' h
    simp only [seedPlus, Option.some.injEq] at h
    exact ⟨fun x hx => h ▸ hx, fun it hit => absurd hit (List.not_mem_nil it)⟩
  | cons item rest ih =>
    intro ex ex' h
    cases hplu : item.plu with
    | none =>
      simp only [seedPlus, hplu] at h
      obtain ⟨hmono, hmem⟩ := ih ex ex' h
      refine ⟨hmono, ?_⟩
      intro it hit s p h1 h2
      rcases List.mem_cons.mp hit with rfl | hit
      · rw [hplu] at h1; cases h1
      · exact hmem it hit s p h1 h2
    | some s =>
      simp only [seedPlus, hplu] at h
      cases hparse : rustParseU16 s with
      | none =>
        simp only [hparse] at h
        exact Option.noConfusion h
      | some p =>
        simp only [hparse] at h
        obtain ⟨hmono, hmem⟩ := ih (insert p ex) ex' h
        refine ⟨fun x hx => hmono x (Finset.mem_insert_of_mem hx), ?_⟩
        intro it hit s' p' h1 h2
        rcases List.mem_cons.mp hit with rfl | hit
        · rw [hplu] at h1
          injection h1 with h1
          subst h1
          rw [hparse] at h2
          injection h2 with h2
          subst h2
          exact hmono p (Finset.mem_insert_self p ex)
        · exact hmem it hit s' p' h1 h2

/-- C4: the PLUs of one allocation pass's output — the values kept on
items plus the values newly assigned by corrections, in processing
order — are pairwise distinct, for every input catalog. -/
theorem c4_output_plus_nodup :
    ∀ (keep : String → Bool) (items : List ProductData),
      (allocOut keep items).Nodup := by
  intro keep items
  unfold allocOut allocate
  cases hseed : seedPlus ∅ (sortItems keep items) with
  | none => simp [hseed]
  | some ex =>
    cases hfold : allocFold ⟨ex, ∅, [], []⟩ (sortItems keep items) with
    | none => simp [hseed, hfold]
    | some st' =>
      obtain ⟨-, hpre⟩ := seedPlus_mem (sortItems keep items) ∅ ex hseed
      have hres := allocFold_nodup (sortItems keep items) ⟨ex, ∅, [], []⟩ st' hfold
        (fun x hx => absurd hx (Finset.not_mem_empty x))
        hpre List.nodup_nil (fun v hv => absurd hv (List.not_mem_nil v))
      simpa [hseed, hfold] using hres

/-! ## Decimal rendering round-trips through `u16` parsing -/

theorem digitChar_digit (d : ℕ) (hd : d < 10) :
    isDigitChar (digitChar d) = true ∧ (digitChar d).toNat - 48 = d := by
  interval_cases d <;> exact ⟨by decide, by decide⟩

theorem digitsToNat_append (xs : List Char) :
    ∀ (acc : ℕ) (ys : List Char),
      digitsToNat acc (xs ++ ys) = (digitsToNat acc xs).bind fun m => digitsToNat m ys := by
  induction xs with
  | nil => intro acc ys; rfl
  | cons c xs ih =>
    intro acc ys
    simp only [List.cons_append, digitsToNat]
    by_cases hc : isDigitChar c = true
    · rw [if_pos hc, if_pos hc, show xs.append ys = xs ++ ys from rfl, ih]
    · rw [if_neg hc, if_neg hc]; rfl

theorem digitsAux_all_digits :
    ∀ (fuel n : ℕ), ∀ c ∈ digitsAux fuel n, isDigitChar c = true := by
  intro fuel
  induction fuel with
  | zero => intro n c hc; simp [digitsAux] at hc
  | succ fuel ih =>
    intro n c hc
    simp only [digitsAux] at hc
    by_cases hn : n < 10
    · rw [if_pos hn] at hc
      have hc := List.mem_singleton.mp hc
      subst hc
      exact (digitChar_digit n hn).1
    · rw [if_neg hn] at hc
      rcases List.mem_cons.mp hc with rfl | hc
      · exact (digitChar_digit (n % 10) (Nat.mod_lt n (by omega))).1
      · exact ih (n / 10) c hc

theorem digitsAux_ne_nil (fuel n : ℕ) (h : 0 < fuel) : digitsAux fuel n ≠ [] := by
  cases fuel with
  | zero => omega
  | succ fuel =>
    simp only [digitsAux]
    split <;> simp

theorem digitsAux_parse :
    ∀ (fuel n : ℕ), n < fuel → ∀ acc,
      digitsToNat acc ((digitsAux fuel n).reverse) =
        some (acc * 10 ^ (digitsAux fuel n).length + n) := by
  intro fuel
  induction fuel with
  | zero => intro n h; omega
  | succ fuel ih =>
    intro n hn acc
    by_cases h10 : n < 10
    · simp only [digitsAux, if_pos h10, List.reverse_cons, List.reverse_nil,
        List.nil_append, List.length_cons, List.length_nil]
      rw [digitsToNat, if_pos (digitChar_digit n h10).1, (digitChar_digit n h10).2,
        digitsToNat]
      simp
    · have hpos : 0 < n := by omega
      have hrec : n / 10 < fuel := by
        have := Nat.div_lt_self hpos (by omega : 1 < 10)
        omega
      simp only [digitsAux, if_neg h10, List.reverse_cons, List.length_cons]
      rw [digitsToNat_append, ih (n / 10) hrec acc]
      simp only [Option.some_bind]
      rw [digitsToNat, if_pos (digitChar_digit (n % 10) (Nat.mod_lt n (by omega))).1,
        (digitChar_digit (n % 10) (Nat.mod_lt n (by omega))).2, digitsToNat]
      have hmod := Nat.div_add_mod n 10
      rw [pow_succ]
      congr 1
      ring_nf
      omega

theorem isDigitChar_ne_plus {c : Char} (h : isDigitChar c = true) : ¬ c = '+' := by
  intro he
  subst he
  simp [isDigitChar] at h

theorem natToString_parse (v : ℕ) (hv : v ≤ 65535) :
    rustParseU16 (natToString v) = some v := by
  have hne : (digitsAux (v + 1) v).reverse ≠ [] := by
    intro h
    exact digitsAux_ne_nil (v + 1) v (by omega) (List.reverse_eq_nil_iff.mp h)
  have hparse : parseNatDigits ((digitsAux (v + 1) v).reverse) = some v := by
    cases hrev : (digitsAux (v + 1) v).reverse with
    | nil => exact absurd hrev hne
    | cons c cs =>
      have h := digitsAux_parse (v + 1) v (by omega) 0
      rw [hrev] at h
      show digitsToNat 0 (c :: cs) = some v
      rw [h]
      simp
  have hstrip : stripPlusSign ((digitsAux (v + 1) v).reverse) =
      (digitsAux (v + 1) v).reverse := by
    cases hrev : (digitsAux (v + 1) v).reverse with
    | nil => rfl
    | cons c cs =>
      have hcdig : isDigitChar c = true := by
        refine digitsAux_all_digits (v + 1) v c ?_
        rw [← List.mem_reverse, hrev]
        exact List.mem_cons_self c cs
      rw [stripPlusSign, if_neg (isDigitChar_ne_plus hcdig)]
  show (parseNatDigits (stripPlusSign ((digitsAux (v + 1) v).reverse))).bind _ = some v
  rw [hstrip, hparse]
  simp only [Option.some_bind]
  rw [if_pos hv]

theorem rustParseU16_le {s : String} {p : ℕ} (h : rustParseU16 s = some p) :
    p ≤ 65535 := by
  simp only [rustParseU16, Option.bind_eq_some] at h
  obtain ⟨n, hn, hif⟩ := h
  by_cases hle : n ≤ 65535
  · rw [if_pos hle] at hif
    injection hif with h'
    omega
  · rw [if_neg hle] at hif
    exact absurd hif (by simp)

/-! ## Applying corrections preserves every field the allocator sorts
and filters on -/

theorem applyOne_fields (cs : List PLUAssignment) (item : ProductData) :
    (applyOne cs item).upc = item.upc ∧
    (applyOne cs item).description = item.description ∧
    (applyOne cs item).sectionId = item.sectionId ∧
    (applyOne cs item).deleted = item.deleted := by
  unfold applyOne
  cases cs.find? (fun c => c.upc == item.upc) <;> simp

theorem wrongRange_applyOne (cs : List PLUAssignment) (item : ProductData) (v : ℕ) :
    wrongRange (applyOne cs item) v = wrongRange item v := by
  unfold wrongRange
  rw [(applyOne_fields cs item).2.1]

theorem keepItem_applyOne (keep : String → Bool) (cs : List PLUAssignment)
    (item : ProductData) :
    keepItem keep (applyOne cs item) = keepItem keep item := by
  unfold keepItem
  rw [(applyOne_fields cs item).1, (applyOne_fields cs item).2.2.2]

theorem descLE_applyOne (cs : List PLUAssignment) (a b : ProductData) :
    descLE a b ↔ descLE (applyOne cs a) (applyOne cs b) := by
  unfold descLE
  rw [(applyOne_fields cs a).2.1, (applyOne_fields cs b).2.1]

theorem secLE_applyOne (cs : List PLUAssignment) (a b : ProductData) :
    secLE a b ↔ secLE (applyOne cs a) (applyOne cs b) := by
  unfold secLE secKey
  rw [(applyOne_fields cs a).2.2.1, (applyOne_fields cs b).2.2.1]

theorem sortItems_applyOne (keep : String → Bool) (cs : List PLUAssignment)
    (items : List ProductData) :
    sortItems keep (items.map (applyOne cs)) = (sortItems keep items).map (applyOne cs) := by
  unfold sortItems
  have hfilter : (items.map (applyOne cs)).filter (keepItem keep) =
      (items.filter (keepItem keep)).map (applyOne cs) := by
    rw [List.filter_map]
    congr 1
    exact List.filter_congr fun it _ => keepItem_applyOne keep cs it
  rw [hfilter,
    ← List.map_insertionSort descLE descLE (applyOne cs) (items.filter (keepItem keep))
      (fun a _ b _ => descLE_applyOne cs a b),
    ← List.map_insertionSort secLE secLE (applyOne cs)
      ((items.filter (keepItem keep)).insertionSort descLE)
      (fun a _ b _ => secLE_applyOne cs a b)]

/-! ## A list of distinct, in-range, parseable PLUs passes the
allocator untouched -/

theorem forall₂_exists_left {α β : Type} {p : α → β → Prop} :
    ∀ {l : List α} {vals : List β}, List.Forall₂ p l vals → ∀ x ∈ l, ∃ v, p x v := by
  intro l vals h
  induction h with
  | nil => intro x hx; exact absurd hx (List.not_mem_nil x)
  | cons hpd _ ih =>
    intro x hx
    rcases List.mem_cons.mp hx with rfl | hx
    · exact ⟨_, hpd⟩
    · exact ih x hx

theorem seedPlus_total :
    ∀ (l : List ProductData) (ex : Finset ℕ),
      (∀ it ∈ l, ∀ s, it.plu = some s → (rustParseU16 s).isSome = true) →
      ∃ ex', seedPlus ex l = some ex' := by
  intro l
  induction l with
  | nil => intro ex _; exact ⟨ex, rfl⟩
  | cons item rest ih =>
    intro ex hall
    cases hplu : item.plu with
    | none =>
      obtain ⟨ex', hex'⟩ := ih ex (fun it hit => hall it (List.mem_cons_of_mem item hit))
      exact ⟨ex', by rw [seedPlus, hplu]; exact hex'⟩
    | some s =>
      have hsome := hall item (List.mem_cons_self item rest) s hplu
      cases hparse : rustParseU16 s with
      | none => rw [hparse] at hsome; cases hsome
      | some p =>
        obtain ⟨ex', hex'⟩ :=
          ih (insert p ex) (fun it hit => hall it (List.mem_cons_of_mem item hit))
        refine ⟨ex', ?_⟩
        simp only [seedPlus, hplu, hparse]
        exact hex'

theorem pass2_clean :
    ∀ {l₂ : List ProductData} {vals : List ℕ},
      List.Forall₂ (fun it v => ∃ s, it.plu = some s ∧ rustParseU16 s = some v ∧
        wrongRange it v = false) l₂ vals →
      ∀ (st : AllocSt), vals.Nodup → (∀ v ∈ vals, v ∉ st.seen) →
      ∃ st', allocFold st l₂ = some st' ∧ st'.asg = st.asg := by
  intro l₂ vals hfa
  induction hfa with
  | nil => intro st _ _; exact ⟨st, rfl, rfl⟩
  | @cons item v l₂' vals' hpd hrest ih =>
    intro st hnodup hfresh
    obtain ⟨s, hplu, hparse, hwr⟩ := hpd
    have hncond : ¬ (v ∈ st.seen ∨ wrongRange item v = true) := by
      rintro (hin | hw)
      · exact hfresh v (List.mem_cons_self v vals') hin
      · rw [hwr] at hw; cases hw
    have hstep : allocStep st item =
        some ⟨st.existing, insert v st.seen, st.asg, st.out ++ [v]⟩ := by
      simp only [allocStep, hplu, hparse]
      rw [if_neg hncond]
    obtain ⟨hb, hvalsn⟩ := List.nodup_cons.mp hnodup
    obtain ⟨st', hfold', hasg'⟩ :=
      ih ⟨st.existing, insert v st.seen, st.asg, st.out ++ [v]⟩ hvalsn
        (fun w hw => by
          intro hmem
          rcases Finset.mem_insert.mp hmem with rfl | hmem
          · exact hb hw
          · exact hfresh w (List.mem_cons_of_mem v hw) hmem)
    refine ⟨st', ?_, hasg'⟩
    rw [allocFold, hstep]
    exact hfold'

/-! ## One allocation pass leaves every item with a distinct, in-range,
parseable PLU (ranges of corrected values taken as a hypothesis) -/

theorem allocFold_pass1 :
    ∀ (l : List ProductData) (st st' : AllocSt),
      allocFold st l = some st' →
      (∀ x ∈ st.seen, x ∈ st.existing) →
      (∀ it ∈ l, ∀ s p, it.plu = some s → rustParseU16 s = some p → p ∈ st.existing) →
      (l.map ProductData.upc).Nodup →
      (∀ it ∈ l, ∀ c ∈ st.asg, c.upc ≠ it.upc) →
      (∀ c, c ∈ st'.asg → c ∉ st.asg →
        c.plu ≤ 65535 ∧ ∀ it ∈ l, it.upc = c.upc → wrongRange it c.plu = false) →
      ∃ vals : List ℕ,
        vals.Nodup ∧ (∀ v ∈ vals, v ∉ st.seen) ∧
        List.Forall₂ (fun it v => ∃ s, (applyOne st'.asg it).plu = some s ∧
          rustParseU16 s = some v ∧ wrongRange it v = false) l vals ∧
        ∃ newAsg, st'.asg = st.asg ++ newAsg ∧
          ∀ c ∈ newAsg, ∃ it ∈ l, c.upc = it.upc := by
  intro l
  induction l with
  | nil =>
    intro st st' hfold _ _ _ _ _
    simp only [allocFold, Option.some.injEq] at hfold
    subst hfold
    exact ⟨[], List.nodup_nil, fun v hv => absurd hv (List.not_mem_nil v),
      List.Forall₂.nil, [], by simp, fun c hc => absurd hc (List.not_mem_nil c)⟩
  | cons item rest ih =>
    intro st st' hfold hsub hpre hnodup hfresh hrange
    simp only [List.map_cons, List.nodup_cons] at hnodup
    obtain ⟨hupc_notin, hnodup_rest⟩ := hnodup
    simp only [allocFold] at hfold
    cases hstep : allocStep st item with
    | none => rw [hstep] at hfold; cases hfold
    | some st₁ =>
      rw [hstep] at hfold
      have hfind_old : ∀ A : List PLUAssignment,
          (∀ c ∈ A, c.upc ≠ item.upc) →
          A.find? (fun c => c.upc == item.upc) = none := by
        intro A hA
        rw [List.find?_eq_none]
        intro c hc
        simp only [beq_iff_eq]
        exact hA c hc
      rcases allocStep_cases st item st₁ hstep with
        ⟨s, p, hplu, hparse, hnseen, hnw, hst₁⟩ | ⟨-, hst₁⟩
      · -- kept
        subst hst₁
        obtain ⟨vals', hnodup', hfresh', hfa', newAsg, hAeq, hchar⟩ :=
          ih ⟨st.existing, insert p st.seen, st.asg, st.out ++ [p]⟩ st' hfold
            (fun x hx => by
              rcases Finset.mem_insert.mp hx with rfl | hx
              · exact hpre item (List.mem_cons_self item rest) s x hplu hparse
              · exact hsub x hx)
            (fun it hit s' p' h1 h2 =>
              hpre it (List.mem_cons_of_mem item hit) s' p' h1 h2)
            hnodup_rest
            (fun it hit c hc => hfresh it (List.mem_cons_of_mem item hit) c hc)
            (fun c h1 h2 => ⟨(hrange c h1 h2).1,
              fun it hit => (hrange c h1 h2).2 it (List.mem_cons_of_mem item hit)⟩)
        have hfind : st'.asg.find? (fun c => c.upc == item.upc) = none := by
          rw [hAeq, List.find?_append,
            hfind_old st.asg (fun c hc => hfresh item (List.mem_cons_self item rest) c hc),
            hfind_old newAsg (fun c hc he => by
              obtain ⟨it', hit', hupc'⟩ := hchar c hc
              rw [he] at hupc'
              exact hupc_notin (hupc' ▸ List.mem_map_of_mem ProductData.upc hit')),
            Option.none_or]
        refine ⟨p :: vals', ?_, ?_, ?_, newAsg, hAeq, ?_⟩
        · rw [List.nodup_cons]
          refine ⟨fun hp => ?_, hnodup'⟩
          exact hfresh' p hp (Finset.mem_insert_self p st.seen)
        · intro v hv
          rcases List.mem_cons.mp hv with rfl | hv
          · exact hnseen
          · intro hmem
            exact hfresh' v hv (Finset.mem_insert_of_mem hmem)
        · refine List.Forall₂.cons ⟨s, ?_, hparse, hnw⟩ hfa'
          unfold applyOne
          rw [hfind, hplu]
        · intro c hc
          obtain ⟨it', hit', hupc'⟩ := hchar c hc
          exact ⟨it', List.mem_cons_of_mem item hit', hupc'⟩
      · -- corrected
        subst hst₁
        obtain ⟨hfloor, hnotin, hmin, hins⟩ := next_plu_spec st.existing item
        obtain ⟨vals', hnodup', hfresh', hfa', newAsg', hAeq, hchar⟩ :=
          ih ⟨(next_plu st.existing item).2,
              insert (next_plu st.existing item).1 st.seen,
              st.asg ++ [⟨item.upc, (next_plu st.existing item).1⟩],
              st.out ++ [(next_plu st.existing item).1]⟩ st' hfold
            (fun x hx => by
              rw [hins]
              rcases Finset.mem_insert.mp hx with rfl | hx
              · exact Finset.mem_insert_self _ _
              · exact Finset.mem_insert_of_mem (hsub x hx))
            (fun it hit s' p' h1 h2 => by
              rw [hins]
              exact Finset.mem_insert_of_mem
                (hpre it (List.mem_cons_of_mem item hit) s' p' h1 h2))
            hnodup_rest
            (fun it hit c hc => by
              rcases List.mem_append.mp hc with hc | hc
              · exact hfresh it (List.mem_cons_of_mem item hit) c hc
              · have hc := List.mem_singleton.mp hc
                subst hc
                intro he
                have he' : item.upc = it.upc := he
                exact hupc_notin (he' ▸ List.mem_map_of_mem ProductData.upc hit))
            (fun c h1 h2 => by
              have h2' : c ∉ st.asg := fun hmem =>
                h2 (List.mem_append.mpr (Or.inl hmem))
              exact ⟨(hrange c h1 h2').1,
                fun it hit => (hrange c h1 h2').2 it (List.mem_cons_of_mem item hit)⟩)
        have hentry_mem :
            (⟨item.upc, (next_plu st.existing item).1⟩ : PLUAssignment) ∈ st'.asg := by
          rw [hAeq]
          exact List.mem_append.mpr (Or.inl (List.mem_append.mpr (Or.inr
            (List.mem_singleton.mpr rfl))))
        have hentry_not :
            (⟨item.upc, (next_plu st.existing item).1⟩ : PLUAssignment) ∉ st.asg :=
          fun hmem => hfresh item (List.mem_cons_self item rest) _ hmem rfl
        obtain ⟨hbound, hwr_all⟩ := hrange _ hentry_mem hentry_not
        have hwr : wrongRange item (next_plu st.existing item).1 = false :=
          hwr_all item (List.mem_cons_self item rest) rfl
        have hfind : st'.asg.find? (fun c => c.upc == item.upc) =
            some ⟨item.upc, (next_plu st.existing item).1⟩ := by
          rw [hAeq, List.find?_append, List.find?_append,
            hfind_old st.asg (fun c hc => hfresh item (List.mem_cons_self item rest) c hc),
            Option.none_or]
          rw [List.find?_cons_of_pos _ (by simp), Option.or_some]
        refine ⟨(next_plu st.existing item).1 :: vals', ?_, ?_, ?_,
          ⟨item.upc, (next_plu st.existing item).1⟩ :: newAsg', ?_, ?_⟩
        · rw [List.nodup_cons]
          refine ⟨fun hp => ?_, hnodup'⟩
          exact hfresh' _ hp (Finset.mem_insert_self _ _)
        · intro v hv
          rcases List.mem_cons.mp hv with rfl | hv
          · exact fun hmem => hnotin (hsub _ hmem)
          · exact fun hmem => hfresh' v hv (Finset.mem_insert_of_mem hmem)
        · refine List.Forall₂.cons
            ⟨natToString (next_plu st.existing item).1, ?_,
              natToString_parse _ hbound, hwr⟩ hfa'
          unfold applyOne
          rw [hfind]
        · rw [hAeq, List.append_assoc, List.singleton_append]
        · intro c hc
          rcases List.mem_cons.mp hc with rfl | hc
          · exact ⟨item, List.mem_cons_self item rest, rfl⟩
          · obtain ⟨it', hit', hupc'⟩ := hchar c hc
            exact ⟨it', List.mem_cons_of_mem item hit', hupc'⟩

/-! ## C3: idempotence of the allocation pass -/

/-- The two same-UPC items of the C3 counterexample. -/
def dupItemA : ProductData := ⟨"U", "A", none, false, none, 1, none⟩

/-- The second item sharing `dupItemA`'s UPC. -/
def dupItemB : ProductData := ⟨"U", "B", none, false, none, 1, none⟩

/-- C3 counterexample: two items sharing one UPC both receive
corrections keyed by that UPC; applying the correction batch gives both
items the same PLU, so the second pass flags a duplicate and produces a
further correction — idempotence fails on such a catalog. -/
theorem c3_counterexample :
    allocAssignments (fun _ => true)
      (applyCorrections [dupItemA, dupItemB]
        (allocAssignments (fun _ => true) [dupItemA, dupItemB])) = [⟨"U", 1002⟩] ∧
    allocAssignments (fun _ => true)
      (applyCorrections [dupItemA, dupItemB]
        (allocAssignments (fun _ => true) [dupItemA, dupItemB])) ≠ [] :=
  ⟨by decide, by decide⟩

/-- C3 (amended): re-running the allocator on its own corrected output
produces zero further corrections, provided the catalog's UPCs are
pairwise distinct and every correction of the first pass stays within
its item's category range (at most 999 for internal items — not
guaranteed when the sub-1000 space fills up — and at most 65535). -/
theorem c3_idempotent_amended :
    ∀ (keep : String → Bool) (items : List ProductData),
      (allocate keep items).isSome = true →
      (items.map ProductData.upc).Nodup →
      (∀ c ∈ allocAssignments keep items, c.plu ≤ 65535 ∧
        ∀ it ∈ items, it.upc = c.upc → wrongRange it c.plu = false) →
      allocAssignments keep (applyCorrections items (allocAssignments keep items)) = [] := by
  intro keep items hsome hupc hrange
  obtain ⟨st₁, hst₁⟩ : ∃ st₁, allocate keep items = some st₁ := by
    cases h : allocate keep items with
    | none => rw [h] at hsome; cases hsome
    | some st => exact ⟨st, rfl⟩
  have hAssign : allocAssignments keep items = st₁.asg := by
    unfold allocAssignments
    rw [hst₁]
    rfl
  rw [hAssign] at hrange ⊢
  cases hseed : seedPlus ∅ (sortItems keep items) with
  | none => exact absurd hst₁ (by simp [allocate, hseed])
  | some ex =>
    have hfold : allocFold ⟨ex, ∅, [], []⟩ (sortItems keep items) = some st₁ := by
      have h := hst₁
      simp only [allocate, hseed] at h
      exact h
    have hperm : (sortItems keep items).Perm (items.filter (keepItem keep)) :=
      (List.perm_insertionSort secLE _).trans (List.perm_insertionSort descLE _)
    have hsorted_nodup : ((sortItems keep items).map ProductData.upc).Nodup := by
      rw [List.Perm.nodup_iff (hperm.map ProductData.upc)]
      exact List.Nodup.sublist ((List.filter_sublist items).map ProductData.upc) hupc
    have hmem_items : ∀ it ∈ sortItems keep items, it ∈ items := fun it hit =>
      List.mem_of_mem_filter (hperm.mem_iff.mp hit)
    obtain ⟨-, hpre⟩ := seedPlus_mem _ ∅ ex hseed
    obtain ⟨vals, hvnodup, -, hfa, -⟩ :=
      allocFold_pass1 (sortItems keep items) ⟨ex, ∅, [], []⟩ st₁ hfold
        (fun x hx => absurd hx (Finset.not_mem_empty x))
        hpre hsorted_nodup
        (fun it _ c hc => absurd hc (List.not_mem_nil c))
        (fun c h1 h2 => ⟨(hrange c h1).1,
          fun it hit hupc' => (hrange c h1).2 it (hmem_items it hit) hupc'⟩)
    have hfa₂ : List.Forall₂ (fun it v => ∃ s, it.plu = some s ∧
        rustParseU16 s = some v ∧ wrongRange it v = false)
        ((sortItems keep items).map (applyOne st₁.asg)) vals := by
      rw [List.forall₂_map_left_iff]
      refine hfa.imp ?_
      intro a b hab
      obtain ⟨s, h1, h2, h3⟩ := hab
      exact ⟨s, h1, h2, by rw [wrongRange_applyOne]; exact h3⟩
    have hparse_all : ∀ it ∈ (sortItems keep items).map (applyOne st₁.asg),
        ∀ s, it.plu = some s → (rustParseU16 s).isSome = true := by
      intro it hit s hplu
      obtain ⟨v, s', h1, h2, -⟩ := forall₂_exists_left hfa₂ it hit
      rw [h1] at hplu
      injection hplu with hplu
      subst hplu
      rw [h2]
      rfl
    obtain ⟨ex₂, hseed₂⟩ := seedPlus_total _ ∅ hparse_all
    obtain ⟨st₂, hfold₂, hasg₂⟩ :=
      pass2_clean hfa₂ ⟨ex₂, ∅, [], []⟩ hvnodup
        (fun v _ => Finset.not_mem_empty v)
    have hsorted₂ : sortItems keep (items.map (applyOne st₁.asg)) =
        (sortItems keep items).map (applyOne st₁.asg) :=
      sortItems_applyOne keep st₁.asg items
    show allocAssignments keep (applyCorrections items st₁.asg) = []
    unfold allocAssignments allocate applyCorrections
    rw [hsorted₂]
    dsimp only
    simp only [hseed₂, hfold₂]
    simpa using hasg₂

/-- C3 witness: the Example 1 catalog (distinct UPCs, in-range
corrections) re-allocates to zero further corrections. -/
theorem c3_witness :
    allocAssignments (fun _ => true)
      (applyCorrections example1Items
        (allocAssignments (fun _ => true) example1Items)) = [] :=
  c3_idempotent_amended (fun _ => true) example1Items (by decide) (by decide) (by decide)
